import Mathlib

/-!
Verification development for `Bio/Phylo/NewickIO.py` (Biopython's Newick
reader/writer).  The Python module is shallowly embedded: Python strings are
`List Char`, Python floats are modelled as exact decimal numbers (`Dec`,
an integer mantissa with a base-10 exponent, kept normalized), generators
are lists, and exceptions are `Except` values.  All definitions are
translated directly from the source; the tokenizer reproduces the
behaviour of `re.finditer` over the module's alternation of nine token
patterns, including the silent skipping of positions where no pattern
matches and the backtracking behaviour of the quoted-label and comment
patterns.
-/

namespace NewickIO

/-- Python strings are modelled as lists of characters. -/
abbrev Str := List Char

/-- The single-quote character (written via its code point). -/
def squote : Char := Char.ofNat 39

/-- The backslash character (written via its code point). -/
def bslash : Char := Char.ofNat 92

/-- ASCII decimal digit test (`[0-9]` in the token patterns). -/
def isDig (c : Char) : Bool := 48 ≤ c.toNat && c.toNat ≤ 57

/-- Python `\s` whitespace (ASCII part): space, tab, newline, carriage
return, form feed, vertical tab. -/
def isPySpace (c : Char) : Bool :=
  c = ' ' || c = '\t' || c = '\n' || c = '\r' ||
  c = Char.ofNat 11 || c = Char.ofNat 12

/-- Characters allowed in an unquoted node label: the pattern
`[^\s\(\)\[\]\'\:\;\,]+` from the `tokens` table, i.e. anything that is
not whitespace and not one of `()[]':;,`. -/
def isLabelChar (c : Char) : Bool :=
  !(isPySpace c) && c ≠ '(' && c ≠ ')' && c ≠ '[' && c ≠ ']' &&
  c ≠ squote && c ≠ ':' && c ≠ ';' && c ≠ ','

/-- Exact decimal number: `num / 10 ^ exp`.  This is the model of Python
floats used throughout: every numeric literal the module ever parses or
prints is a (signed) decimal or exponential numeral, represented here
exactly.  Values are kept normalized (no trailing zero factor in `num`
while `exp > 0`) by constructing them through `mkDec`. -/
structure Dec where
  num : Int
  exp : Nat
deriving DecidableEq, Repr

/-- Normalization loop: strip factors of ten from `num` while the
exponent is positive.  Structural on `exp`, hence kernel-computable. -/
def mkDecAux : Int → Nat → Dec
  | n, 0 => ⟨n, 0⟩
  | n, e + 1 => if n % 10 = 0 then mkDecAux (n / 10) e else ⟨n, e + 1⟩

/-- Build a normalized decimal from mantissa and exponent. -/
def mkDec (n : Int) (e : Nat) : Dec := mkDecAux n e

/-- A decimal is canonical if normalization leaves it unchanged. -/
def decCanon (d : Dec) : Bool := mkDec d.num d.exp = d

/-- The value of a `Dec` as a rational (used in statements only). -/
def Dec.toRat (d : Dec) : ℚ := (d.num : ℚ) / (10 : ℚ) ^ d.exp

/-- Result of Python's `float()` / numeric fields: either an `int`
(produced by `int(text)` when `text.isdigit()`), or a float value,
which can be a finite decimal, an infinity, or a NaN. -/
inductive PyNum where
  | int (n : Int)
  | float (d : Dec)
  | inf (neg : Bool)
  | nan
deriving DecidableEq, Repr

/-- Python truthiness of a number (`0` and `0.0` are falsy; `nan` and
infinities are truthy). -/
def PyNum.truthy : PyNum → Bool
  | .int n => n ≠ 0
  | .float d => d.num ≠ 0
  | .inf _ => true
  | .nan => true

/-- The finite value of a `PyNum` as a normalized decimal (infinities and
NaN are mapped to zero; they are never produced on the paths where this
is used). -/
def numToDec : PyNum → Dec
  | .int n => mkDec n 0
  | .float d => d
  | .inf _ => ⟨0, 0⟩
  | .nan => ⟨0, 0⟩

/-- The nine token kinds of the module-level `tokens` table.  Each
carries the text needed downstream: the quoted label and the comment
carry their inner text (between the delimiters), the edge-length token
carries `token[1:]` (everything after the colon, including the optional
space), and the unquoted label carries the matched run. -/
inductive Tok where
  | popen
  | pclose
  | unquoted (s : Str)
  | edge (payload : Str)
  | comma
  | comment (s : Str)
  | quoted (s : Str)
  | semi
  | newline
deriving DecidableEq, Repr

/-- The text matched by a token (`match.group()`), used in the
"Text after semicolon" error message. -/
def Tok.text : Tok → Str
  | .popen => ['(']
  | .pclose => [')']
  | .unquoted s => s
  | .edge payload => ':' :: payload
  | .comma => [',']
  | .comment s => '[' :: s ++ [']']
  | .quoted s => squote :: s ++ [squote]
  | .semi => [';']
  | .newline => ['\n']

/-- Backtracking scan for the quoted-label pattern `\'(\\.|[^\'])*\'`,
entered just after the opening quote.  Returns the raw inner text (no
unescaping) and the remainder after the closing quote.  The first
alternative `\\.` (backslash followed by any non-newline character) is
preferred; if the remainder then admits no closing quote, the scan
backtracks and consumes the backslash via `[^\']` alone, exactly as the
Python regex engine does. -/
def qScan : Str → Option (Str × Str)
  | [] => none
  | [c] => if c = squote then some ([], []) else none
  | c :: d :: rest2 =>
    if c = squote then some ([], d :: rest2)
    else if c = bslash then
      if d = '\n' then
        (qScan (d :: rest2)).map (fun p => (c :: p.1, p.2))
      else
        match qScan rest2 with
        | some (content, r) => some (c :: d :: content, r)
        | none => (qScan (d :: rest2)).map (fun p => (c :: p.1, p.2))
    else
      (qScan (d :: rest2)).map (fun p => (c :: p.1, p.2))

/-- Backtracking scan for the comment pattern `\[(\\.|[^\]])*\]`,
entered just after the opening bracket; same engine behaviour as
`qScan` with `]` as the delimiter. -/
def brScan : Str → Option (Str × Str)
  | [] => none
  | [c] => if c = ']' then some ([], []) else none
  | c :: d :: rest2 =>
    if c = ']' then some ([], d :: rest2)
    else if c = bslash then
      if d = '\n' then
        (brScan (d :: rest2)).map (fun p => (c :: p.1, p.2))
      else
        match brScan rest2 with
        | some (content, r) => some (c :: d :: content, r)
        | none => (brScan (d :: rest2)).map (fun p => (c :: p.1, p.2))
    else
      (brScan (d :: rest2)).map (fun p => (c :: p.1, p.2))

/-- Scan for the optional sign `[+-]?` of the edge-length pattern. -/
def signScan (cs : Str) : Str × Str :=
  match cs with
  | c :: rest => if c = '+' ∨ c = '-' then ([c], rest) else ([], cs)
  | [] => ([], cs)

/-- Scan for the mantissa `[0-9]*\.?[0-9]+` of the edge-length pattern,
with the regex engine's greedy-then-backtrack behaviour: a trailing dot
with no digits after it is given back. -/
def mantScan (cs : Str) : Option (Str × Str) :=
  match cs.dropWhile isDig with
  | '.' :: r2 =>
    if r2.takeWhile isDig ≠ [] then
      some (cs.takeWhile isDig ++ '.' :: r2.takeWhile isDig, r2.dropWhile isDig)
    else if cs.takeWhile isDig ≠ [] then
      some (cs.takeWhile isDig, cs.dropWhile isDig)
    else none
  | _ =>
    if cs.takeWhile isDig ≠ [] then
      some (cs.takeWhile isDig, cs.dropWhile isDig)
    else none

/-- Scan for the optional exponent `([eE][+-]?[0-9]+)?`; returns the
matched part (possibly empty) and the remainder. -/
def expScan (cs : Str) : Str × Str :=
  match cs with
  | c :: d :: r2 =>
    if c = 'e' ∨ c = 'E' then
      if d = '+' ∨ d = '-' then
        if r2.takeWhile isDig ≠ [] then
          (c :: d :: r2.takeWhile isDig, r2.dropWhile isDig)
        else ([], c :: d :: r2)
      else
        if (d :: r2).takeWhile isDig ≠ [] then
          (c :: (d :: r2).takeWhile isDig, (d :: r2).dropWhile isDig)
        else ([], c :: d :: r2)
    else ([], c :: d :: r2)
  | cs => ([], cs)

/-- Scan for the signed number `[+-]?[0-9]*\.?[0-9]+([eE][+-]?[0-9]+)?`
of the edge-length pattern (a sign with no following mantissa fails, as
in the regex, since no alternative path can match). -/
def numScan (cs : Str) : Option (Str × Str) :=
  match mantScan (signScan cs).2 with
  | some (m, r1) => some ((signScan cs).1 ++ m ++ (expScan r1).1, (expScan r1).2)
  | none => none

/-- Scan for the edge-length payload after the colon: `\ ?` then the
signed number.  (If the optional space is consumed but no number
follows, the regex backtracks to no-space, where the number also fails
because it cannot start with a space; so the branch structure below is
exact.) -/
def edgeScan (cs : Str) : Option (Str × Str) :=
  match cs with
  | ' ' :: rest => (numScan rest).map (fun p => (' ' :: p.1, p.2))
  | _ => numScan cs

/-- One scanning step of `re.finditer(tokenizer, text)` where `tokenizer`
is the alternation of the nine patterns of the `tokens` table, in order.
At the current position the first matching alternative wins (the
alternatives are distinguished by their first character, except that a
colon not followed by a number matches nothing); a position where no
pattern matches is skipped — `finditer` just advances one character —
which is reported as `some (none, rest)`.  `none` means end of input. -/
def tokStep : Str → Option (Option Tok × Str)
  | [] => none
  | c :: rest =>
    if c = '(' then some (some .popen, rest)
    else if c = ')' then some (some .pclose, rest)
    else if isLabelChar c then
      some (some (.unquoted (c :: rest.takeWhile isLabelChar)),
        rest.dropWhile isLabelChar)
    else if c = ':' then
      match edgeScan rest with
      | some (payload, r) => some (some (.edge payload), r)
      | none => some (none, rest)
    else if c = ',' then some (some .comma, rest)
    else if c = '[' then
      match brScan rest with
      | some (content, r) => some (some (.comment content), r)
      | none => some (none, rest)
    else if c = squote then
      match qScan rest with
      | some (content, r) => some (some (.quoted content), r)
      | none => some (none, rest)
    else if c = ';' then some (some .semi, rest)
    else if c = '\n' then some (some .newline, rest)
    else some (none, rest)

/-- Fuel-driven tokenization loop (the fuel is only a structural-recursion
device; `tokenize` supplies enough for the whole input). -/
def tokenizeAux : Nat → Str → List Tok
  | 0, _ => []
  | fuel + 1, cs =>
    match tokStep cs with
    | none => []
    | some (some t, r) => t :: tokenizeAux fuel r
    | some (none, r) => tokenizeAux fuel r

/-- Tokenize a string: the token sequence of
`re.finditer(tokenizer, ...)` over it. -/
def tokenize (s : Str) : List Tok := tokenizeAux s.length s

/-! ### Numbers: decimal rendering (`%` formatting) and `float()` parsing -/

/-- The character of a decimal digit value. -/
def digitChar (d : Nat) : Char := Char.ofNat (48 + d)

/-- Decimal digits of a natural number, most significant first
(fuel-driven for kernel computability; `natDigits` supplies enough). -/
def natDigitsAux : Nat → Nat → Str
  | 0, _ => []
  | fuel + 1, n =>
    if n < 10 then [digitChar n]
    else natDigitsAux fuel (n / 10) ++ [digitChar (n % 10)]

/-- Decimal digits of a natural number, most significant first. -/
def natDigits (n : Nat) : Str := natDigitsAux (n + 1) n

/-- Left-pad a digit string with zeros to the given width. -/
def padZeros (w : Nat) (ds : Str) : Str := List.replicate (w - ds.length) '0' ++ ds

/-- `|d| * 10 ^ prec`, rounded to a natural number, half to even — the
rounding `%.Nf` formatting performs (on this exact-decimal model of
floats). -/
def roundScaled (d : Dec) (prec : Nat) : Nat :=
  if d.exp ≤ prec then d.num.natAbs * 10 ^ (prec - d.exp)
  else
    if 2 * (d.num.natAbs % 10 ^ (d.exp - prec)) > 10 ^ (d.exp - prec) then
      d.num.natAbs / 10 ^ (d.exp - prec) + 1
    else if 2 * (d.num.natAbs % 10 ^ (d.exp - prec)) < 10 ^ (d.exp - prec) then
      d.num.natAbs / 10 ^ (d.exp - prec)
    else if d.num.natAbs / 10 ^ (d.exp - prec) % 2 = 0 then
      d.num.natAbs / 10 ^ (d.exp - prec)
    else d.num.natAbs / 10 ^ (d.exp - prec) + 1

/-- Render a scaled nonnegative value with `prec` decimal places. -/
def fmtFixedNat (prec : Nat) (m : Nat) : Str :=
  if prec = 0 then natDigits m
  else natDigits (m / 10 ^ prec) ++ '.' :: padZeros prec (natDigits (m % 10 ^ prec))

/-- `"%1.<prec>f" % d` for a decimal `d` (the module's default formats
are `%1.2f` for confidences and `%1.5f` for branch lengths). -/
def fmtFixed (prec : Nat) (d : Dec) : Str :=
  (if d.num < 0 then ['-'] else []) ++ fmtFixedNat prec (roundScaled d prec)

/-- `"%1.<prec>f" % v` for any numeric value (`%f` renders infinities
as `inf`/`-inf` and NaN as `nan`). -/
def fmtNum (prec : Nat) : PyNum → Str
  | .int n => fmtFixed prec ⟨n, 0⟩
  | .float d => fmtFixed prec d
  | .inf b => if b then '-' :: 'i' :: 'n' :: ['f'] else 'i' :: 'n' :: ['f']
  | .nan => 'n' :: 'a' :: ['n']

/-- Numeric value of a digit string (most significant first). -/
def decVal (ds : Str) : Nat := ds.foldl (fun a c => 10 * a + (c.toNat - 48)) 0

/-- Continuation of a digit run in Python numeral syntax: accepts
`(digit | _ digit)*` greedily, returning the digits (underscores
dropped) and the remainder. -/
def digitsUCont : Str → (Str × Str)
  | [] => ([], [])
  | c :: rest =>
    if isDig c then ((digitsUCont rest).1.cons c, (digitsUCont rest).2)
    else if c = '_' then
      match rest with
      | d :: rest2 =>
        if isDig d then ((digitsUCont rest2).1.cons d, (digitsUCont rest2).2)
        else ([], c :: rest)
      | [] => ([], c :: rest)
    else ([], c :: rest)

/-- A digit run in Python numeral syntax: `digit (digit | _ digit)*`
(Python 3 allows single underscores between digits in `float()`
input). -/
def digitsU : Str → Option (Str × Str)
  | [] => none
  | c :: rest =>
    if isDig c then some ((digitsUCont rest).1.cons c, (digitsUCont rest).2)
    else none

/-- Mantissa of a Python float numeral: `digits [. digits?] | . digits`,
returning the integer digits, the fractional digits and the
remainder. -/
def pyMant (cs : Str) : Option (Str × Str × Str) :=
  match digitsU cs with
  | some (d1, r1) =>
    match r1 with
    | '.' :: r2 =>
      match digitsU r2 with
      | some (d2, r3) => some (d1, d2, r3)
      | none => some (d1, [], r2)
    | _ => some (d1, [], r1)
  | none =>
    match cs with
    | '.' :: r2 =>
      match digitsU r2 with
      | some (d2, r3) => some ([], d2, r3)
      | none => none
    | _ => none

/-- Build the decimal value of a parsed float numeral: sign, integer
digits, fractional digits, exponent. -/
def decOfParts (neg : Bool) (d1 d2 : Str) (e : Int) : Dec :=
  if 0 ≤ e - (d2.length : Int) then
    mkDec ((if neg then -(decVal (d1 ++ d2) : Int) else (decVal (d1 ++ d2) : Int)) *
      10 ^ (e - (d2.length : Int)).toNat) 0
  else
    mkDec (if neg then -(decVal (d1 ++ d2) : Int) else (decVal (d1 ++ d2) : Int))
      ((d2.length : Int) - e).toNat

/-- Strip an optional sign, returning whether it was a minus. -/
def pySign : Str → (Bool × Str)
  | '+' :: rest => (false, rest)
  | '-' :: rest => (true, rest)
  | cs => (false, cs)

/-- The model of Python's built-in `float(text)` on the strings this
module can feed it: optional surrounding whitespace, optional sign, then
`inf`/`infinity`/`nan` (case-insensitive) or a decimal numeral with
optional fraction and exponent (with Python 3's underscore grouping).
Returns `none` where `float()` raises `ValueError`.  (Unicode digits and
whitespace, accepted by CPython, are outside this ASCII model.) -/
def pyFloat (s : Str) : Option PyNum :=
  match pySign (s.dropWhile isPySpace |>.reverse.dropWhile isPySpace |>.reverse) with
  | (neg, body) =>
    if (body.map Char.toLower) = 'i' :: 'n' :: ['f'] ∨
       (body.map Char.toLower) = 'i' :: 'n' :: 'f' :: 'i' :: 'n' :: 'i' :: 't' :: ['y'] then
      some (.inf neg)
    else if (body.map Char.toLower) = 'n' :: 'a' :: ['n'] then
      some .nan
    else
      match pyMant body with
      | some (d1, d2, r) =>
        match r with
        | [] => some (.float (decOfParts neg d1 d2 0))
        | c :: r4 =>
          if c = 'e' ∨ c = 'E' then
            match pySign r4 with
            | (eneg, r5) =>
              match digitsU r5 with
              | some (eds, r6) =>
                if r6 = [] then
                  some (.float (decOfParts neg d1 d2
                    (if eneg then -(decVal eds : Int) else (decVal eds : Int))))
                else none
              | none => none
          else none
      | none => none

/-- Python's `str.isdigit` on ASCII text: nonempty and all digits. -/
def pyIsDigit (s : Str) : Bool := !s.isEmpty && s.all isDig

/-- `_parse_confidence`: an all-digit string becomes `int(text)`;
otherwise try `float(text)`; on `ValueError` return `None`. -/
def parseConfidence (text : Str) : Option PyNum :=
  if pyIsDigit text then some (.int (decVal text))
  else pyFloat text

/-! ### The tree data model and the parser -/

/-- `Newick.Clade` as this module uses it: `name`, `branch_length`,
`confidence`, `comment` (all defaulting to `None`), and the ordered
child list `clades`.  Two extra fields model dynamic attributes:
`hasParent` records whether the temporary `parent` attribute set by
`new_clade` is currently present (`process_clade` deletes it; only its
presence is observable to the claims), and `coment` models the
attribute of that name read by `_get_comment` — no code ever assigns
it, so it stays `none` and the read always raises `AttributeError`. -/
structure Clade where
  name : Option Str
  branch_length : Option PyNum
  confidence : Option PyNum
  comment : Option Str
  clades : List Clade
  hasParent : Bool
  coment : Option Str
deriving Repr

/-- `Newick.Tree`: a root clade plus tree-level attributes. -/
structure NTree where
  root : Clade
  rooted : Bool := false
  name : Option Str := none
  weight : Dec := ⟨1, 0⟩
deriving Repr

/-- The three parser flags (`values_are_confidence`,
`comments_are_confidence`, `rooted`), all defaulting to false. -/
structure PFlags where
  valuesAreConfidence : Bool := false
  commentsAreConfidence : Bool := false
  rooted : Bool := false

/-- Errors: `NewickError(msg)` or the `ValueError` that `float()` raises
on a malformed numeral. -/
inductive PErr where
  | newick (msg : Str)
  | valueError
deriving DecidableEq, Repr

/-- A fresh clade as produced by `new_clade` (`hasParent` records
whether a parent argument was passed). -/
def newClade (withParent : Bool) : Clade :=
  { name := none, branch_length := none, confidence := none, comment := none,
    clades := [], hasParent := withParent, coment := none }

/-- The confidence heuristic inside `process_clade`: if the clade has a
truthy (nonempty) name, neither override flag is set, no confidence is
assigned yet, and the clade has children, then try to reinterpret the
name as a number; on success clear the name.  (The code assigns
`clade.confidence = _parse_confidence(clade.name)` unconditionally in
that branch, which re-assigns `None` on failure — equivalent to leaving
it unset.) -/
def applyHeuristic (fl : PFlags) (c : Clade) : Clade :=
  if (match c.name with | some s => !s.isEmpty | none => false) &&
     !(fl.valuesAreConfidence || fl.commentsAreConfidence) &&
     c.confidence.isNone && !c.clades.isEmpty then
    match parseConfidence (c.name.getD []) with
    | some v => { c with confidence := some v, name := none }
    | none => { c with confidence := none }
  else c

/-- Parser cursor state: the current clade (`top`), its open ancestors
(`above`, nearest first — the chain of temporary `parent` references;
the last element of `top :: above` is the object the code's
`root_clade` variable denotes), and the parenthesis counters. -/
structure PState where
  top : Clade
  above : List Clade
  lp : Nat
  rp : Nat

/-- `process_clade` on the cursor: apply the heuristic, and if the clade
has a parent, append it to the parent's `clades` (deleting the parent
reference) and return to the parent.  Returns `none` when there is no
parent (the code's `process_clade` returning `None`). -/
def processTop (fl : PFlags) (st : PState) : Option PState :=
  match st.above with
  | [] => none
  | p :: rest =>
    some { st with
      top := { p with clades :=
        p.clades ++ [{ (applyHeuristic fl st.top) with hasParent := false }] }
      above := rest }

/-- The token loop of `_parse_tree`: consume tokens one at a time
against the cursor, stopping at a semicolon (returning the remaining
tokens for the trailing-text check).  (The code's
`entering_branch_length` variable is assigned but never read, so it is
not modelled.) -/
def runToks (fl : PFlags) : List Tok → PState → Except PErr (PState × List Tok)
  | [], st => .ok (st, [])
  | t :: rest, st =>
    match t with
    | .quoted s => runToks fl rest { st with top := { st.top with name := some s } }
    | .comment s =>
      if fl.commentsAreConfidence then
        runToks fl rest { st with top :=
          { st.top with comment := some s, confidence := parseConfidence s } }
      else
        runToks fl rest { st with top := { st.top with comment := some s } }
    | .popen =>
      runToks fl rest
        { st with top := newClade true, above := st.top :: st.above, lp := st.lp + 1 }
    | .comma =>
      match st.above with
      | [] =>
        -- current clade is the root: synthesize a new root, re-parent the
        -- current clade under it, process it, and open a sibling
        let processed : Clade :=
          { (applyHeuristic fl { st.top with hasParent := true }) with hasParent := false }
        let newRoot : Clade := { (newClade false) with clades := [processed] }
        runToks fl rest { st with top := newClade true, above := [newRoot] }
      | p :: rest2 =>
        let processed : Clade := { (applyHeuristic fl st.top) with hasParent := false }
        let p2 : Clade := { p with clades := p.clades ++ [processed] }
        runToks fl rest { st with top := newClade true, above := p2 :: rest2 }
    | .pclose =>
      match processTop fl st with
      | none => .error (.newick ("Parenthesis mismatch.".toList))
      | some st2 => runToks fl rest { st2 with rp := st2.rp + 1 }
    | .semi => .ok (st, rest)
    | .edge payload =>
      match pyFloat payload with
      | none => .error .valueError
      | some v =>
        if fl.valuesAreConfidence then
          runToks fl rest { st with top := { st.top with confidence := some v } }
        else
          runToks fl rest { st with top := { st.top with branch_length := some v } }
    | .newline => runToks fl rest st
    | .unquoted s => runToks fl rest { st with top := { st.top with name := some s } }

/-- The bottom of the cursor chain (the object `root_clade` denotes). -/
def lastOf (c : Clade) (cs : List Clade) : Clade :=
  match cs with
  | [] => c
  | d :: rest => lastOf d rest

/-- Replace the bottom of the cursor chain. -/
def mapLast (f : Clade → Clade) (c : Clade) (cs : List Clade) : Clade × List Clade :=
  match cs with
  | [] => (f c, [])
  | d :: rest => (c, (mapLast f d rest).1 :: (mapLast f d rest).2)

/-- Python `str.strip` (ASCII whitespace). -/
def pyStrip (s : Str) : Str :=
  (s.dropWhile isPySpace).reverse.dropWhile isPySpace |>.reverse

/-- Python `str.rstrip` (ASCII whitespace). -/
def pyRstrip (s : Str) : Str := (s.reverse.dropWhile isPySpace).reverse

/-- The final two `process_clade` calls of `_parse_tree`: process the
current clade (appending it to its parent when it has one — the
returned parent is discarded), then process `root_clade`, the bottom of
the chain, which never has a parent, so only the heuristic applies to
it (twice over when the current clade *is* the root). -/
def finalizeStack (fl : PFlags) (top : Clade) (above : List Clade) :
    Clade × List Clade :=
  match above with
  | [] => (applyHeuristic fl (applyHeuristic fl top), [])
  | p :: rest =>
    mapLast (applyHeuristic fl)
      { p with clades :=
        p.clades ++ [{ (applyHeuristic fl top) with hasParent := false }] }
      rest

/-- `_parse_tree`: tokenize the stripped text, run the token loop,
check the parenthesis counts, reject trailing text after a semicolon,
run the two final `process_clade` calls, and wrap the root in a
`Tree` with the caller's `rooted` flag. -/
def parseTree (fl : PFlags) (text : Str) : Except PErr NTree := do
  let (st, rem) ← runToks fl (tokenize (pyStrip text))
    { top := newClade false, above := [], lp := 0, rp := 0 }
  if st.lp ≠ st.rp then
    .error (.newick ("Number of open/close parentheses do not match.".toList))
  else
    match rem with
    | t :: _ =>
      .error (.newick ("Text after semicolon in Newick tree: ".toList ++ t.text))
    | [] =>
      .ok { root := lastOf (finalizeStack fl st.top st.above).1
              (finalizeStack fl st.top st.above).2,
            rooted := fl.rooted }

/-- Python text-mode line iteration: split after each newline,
keeping the terminator. -/
def pyLines : Str → List Str
  | [] => []
  | c :: rest =>
    if c = '\n' then ['\n'] :: pyLines rest
    else
      match pyLines rest with
      | [] => [[c]]
      | l :: ls => (c :: l) :: ls

/-- The buffering loop of `Parser.parse`: append each line (rstripped)
to a buffer; when the buffer ends with a semicolon, emit it as one
segment and reset; a leftover nonempty buffer is emitted at the end
(tolerating a missing final semicolon). -/
def segmentsAux : List Str → Str → List Str
  | [], buf => if buf.isEmpty then [] else [buf]
  | l :: ls, buf =>
    if (buf ++ pyRstrip l).getLast? = some ';' then
      (buf ++ pyRstrip l) :: segmentsAux ls []
    else segmentsAux ls (buf ++ pyRstrip l)

/-- The semicolon-terminated segments of an input text. -/
def segments (text : Str) : List Str := segmentsAux (pyLines text) []

/-- `Parser.parse`: one tree per segment.  The Python generator yields
trees lazily and raises at the failing segment; consuming it fully
corresponds to this `Except` value. -/
def parseNewick (fl : PFlags) (text : Str) : Except PErr (List NTree) :=
  (segments text).mapM (parseTree fl)

/-! ### The writer -/

/-- `_format_comment`: wrap in brackets, escaping `[` and `]` with a
backslash.  (The two sequential `str.replace` calls compose to this
per-character map, since the first introduces no `]`.) -/
def formatComment (text : Str) : Str :=
  '[' :: (text.flatMap fun ch =>
    if ch = '[' then [bslash, '['] else if ch = ']' then [bslash, ']'] else [ch]) ++ [']']

/-- `_get_comment`: reads the attribute spelled `coment` — a typo for
`comment`, the attribute the parser sets — so the `try` always hits
`AttributeError` for parser-produced clades and the function returns
the empty string. -/
def getComment (c : Clade) : Str :=
  match c.coment with
  | none => []
  | some comment => if comment.isEmpty then [] else formatComment comment

/-- `label = item.name or ""` (a `None` or empty name both yield the
empty string). -/
def labelStr (c : Clade) : Str := c.name.getD []

/-- The writer's escape map: every backslash to `\\`, then every single
quote to `\'` (per-character composite of the two `replace` calls). -/
def escLabel (s : Str) : Str :=
  s.flatMap fun ch =>
    if ch = bslash then [bslash, bslash]
    else if ch = squote then [bslash, squote] else [ch]

/-- The writer's label rendering: a nonempty label that fully matches
the unquoted-label pattern is emitted bare; otherwise it is wrapped in
single quotes with `escLabel` applied (`re.match` succeeds iff the first
character is a label character, and covers the whole string iff all
are). -/
def writerLabel (s : Str) : Str :=
  if s.isEmpty then s
  else if s.all isLabelChar then s
  else squote :: escLabel s ++ [squote]

/-- `x or 0.0` on an optional branch length. -/
def blOrZero (b : Option PyNum) : PyNum :=
  match b with
  | none => .float ⟨0, 0⟩
  | some v => if v.truthy then v else .float ⟨0, 0⟩

/-- `make_info_string` for `plain`: just the bracketed comment. -/
def makeInfoPlain (c : Clade) (_terminal : Bool) : Option Str :=
  some (getComment c)

/-- `make_info_string` for `confidence_as_branch_length`: terminal
nodes get `max_confidence`; internal nodes get their own confidence
(`None` raises `TypeError` inside the `%` formatting, modelled as
`none`). -/
def makeInfoCAB (maxConf : Dec) (fc : Nat) (c : Clade) (terminal : Bool) : Option Str :=
  if terminal then some (':' :: fmtFixed fc maxConf ++ getComment c)
  else
    match c.confidence with
    | some v => some (':' :: fmtNum fc v ++ getComment c)
    | none => none

/-- `make_info_string` for `branch_length_only`: the branch length
(`None` raises `TypeError`, modelled as `none`). -/
def makeInfoBLO (fb : Nat) (c : Clade) (_terminal : Bool) : Option Str :=
  match c.branch_length with
  | some v => some (':' :: fmtNum fb v ++ getComment c)
  | none => none

/-- `make_info_string` in the default mode: branch length only for
terminal or confidence-less nodes (missing branch length becomes
`0.0`), otherwise confidence followed by the branch length.  (A
`Clade` always has the `confidence` attribute, so the `hasattr` test in
the source is always true.) -/
def makeInfoDefault (fc fb : Nat) (c : Clade) (terminal : Bool) : Option Str :=
  if terminal || c.confidence.isNone then
    some (':' :: fmtNum fb (blOrZero c.branch_length) ++ getComment c)
  else
    some (fmtNum fc (c.confidence.getD (.int 0)) ++
      ':' :: fmtNum fb (blOrZero c.branch_length) ++ getComment c)

/-- The writer's presentation options (`ladderize` is `None` here: the
reordering is an external tree operation outside this core). -/
structure WFlags where
  cab : Bool := false
  blo : Bool := false
  plain : Bool := false
  plainNewick : Bool := true
  maxConf : Dec := ⟨1, 0⟩
  fc : Nat := 2
  fb : Nat := 5

/-- `_info_factory`, applied after the conflict rule of `to_strings`
(`confidence_as_branch_length or branch_length_only` forces
`plain = False`). -/
def infoOf (w : WFlags) : Clade → Bool → Option Str :=
  if (if w.cab || w.blo then false else w.plain) then makeInfoPlain
  else if w.cab then makeInfoCAB w.maxConf w.fc
  else if w.blo then makeInfoBLO w.fb
  else makeInfoDefault w.fc w.fb

/-- The worklist items of `newickize`: a clade to render, the
`TerminalMarker` emitted when a non-terminal clade's children are done,
and the `CommaMarker`. -/
inductive WItem where
  | node (c : Clade)
  | marker (c : Clade)
  | commaM

/-- The items pushed (to the front) when an internal clade is expanded:
its children separated by comma markers, then its terminal marker.
(The code pushes a comma before every child and pops the leading
one.) -/
def expandItems (c : Clade) : List WItem :=
  (c.clades.map WItem.node).intersperse WItem.commaM ++ [WItem.marker c]

/-- The worklist loop of `newickize`, fuel-driven (the fuel is a
structural-recursion device; `newickize` supplies enough).  Returns
`none` on a `TypeError` from the info function (or on fuel exhaustion,
which `newickize` never hits). -/
def wLoop (info : Clade → Bool → Option Str) : Nat → List WItem → Str → Option Str
  | _, [], acc => some acc
  | 0, _ :: _, _ => none
  | fuel + 1, item :: rest, acc =>
    match item with
    | .commaM => wLoop info fuel rest (acc ++ [','])
    | .marker c =>
      match info c false with
      | some s => wLoop info fuel rest (acc ++ ')' :: writerLabel (labelStr c) ++ s)
      | none => none
    | .node c =>
      if c.clades.isEmpty then
        match info c true with
        | some s => wLoop info fuel rest (acc ++ writerLabel (labelStr c) ++ s)
        | none => none
      else
        wLoop info fuel (expandItems c ++ rest) (acc ++ ['('])

mutual
/-- Size of a clade (1 per node plus 1 per child edge); supplies the
worklist fuel. -/
def cladeSize : Clade → Nat
  | .mk _ _ _ _ cl _ _ => 1 + cladeListSize cl
/-- Size of a clade list. -/
def cladeListSize : List Clade → Nat
  | [] => 0
  | c :: l => 1 + cladeSize c + cladeListSize l
end

/-- The fuel cost of a worklist item. -/
def itemWeight : WItem → Nat
  | .node c => cladeSize c
  | .marker _ => 1
  | .commaM => 1

/-- Total fuel needed by a worklist. -/
def wNeed (items : List WItem) : Nat := (items.map itemWeight).sum

/-- `newickize`: serialize one clade with the explicit worklist. -/
def newickize (info : Clade → Bool → Option Str) (c : Clade) : Option Str :=
  wLoop info (cladeSize c) [WItem.node c] []

/-- Join words with single spaces (`" ".join`). -/
def joinSpaces : List Str → Str
  | [] => []
  | [w] => w
  | w :: ws => w ++ ' ' :: joinSpaces ws

/-- `round(x, 3)` on the decimal model (round half to even). -/
def decRound3 (d : Dec) : Dec :=
  mkDec ((if d.num < 0 then -1 else 1) * (roundScaled d 3 : Int)) 3

/-- `"%s"` rendering of a (normalized) decimal as Python would `repr`
the corresponding float — an integral value prints with a trailing
`.0`.  (The shortest-repr algorithm of CPython agrees with this on the
normalized decimals produced here.) -/
def decRepr (d : Dec) : Str :=
  (if d.num < 0 then ['-'] else []) ++
  (if d.exp = 0 then natDigits d.num.natAbs ++ '.' :: ['0']
   else natDigits (d.num.natAbs / 10 ^ d.exp) ++
     '.' :: padZeros d.exp (natDigits (d.num.natAbs % 10 ^ d.exp)))

/-- The Nexus-style directive line built when `plain_newick` is false:
`tree <name or a_tree> = [&W<weight>] [&R] <rawtree>`. -/
def treeLine (t : NTree) (raw : Str) : Str :=
  joinSpaces
    ([('t' :: 'r' :: 'e' :: ['e']), t.name.getD ('a' :: '_' :: 't' :: 'r' :: 'e' :: ['e']),
      [' '].tail ++ ['=']] ++
     (if t.weight ≠ ⟨1, 0⟩ then
        ['[' :: '&' :: 'W' :: decRepr (decRound3 t.weight) ++ [']']] else []) ++
     (if t.rooted then [['[', '&', 'R', ']']] else []) ++ [raw])

/-- `to_strings` (with `ladderize=None`: the optional reordering is the
external `Tree.ladderize` operation, outside this module's core): one
string per tree — the raw Newick expression plus `;`, wrapped in the
directive line when `plain_newick` is false.  `none` models a raised
`TypeError`. -/
def toStrings (w : WFlags) (trees : List NTree) : Option (List Str) :=
  trees.mapM fun t =>
    (newickize (infoOf w) t.root).map fun nk =>
      if w.plainNewick then nk ++ [';']
      else treeLine t (nk ++ [';'])

/-- `Writer.write`: write each line and return the count. -/
def writeTrees (w : WFlags) (trees : List NTree) : Option Nat :=
  (toStrings w trees).map List.length

/-! ### Reference definitions for the round-trip analysis -/

/-- The string `make_info_string` produces in the default mode (the
`some`-value of `makeInfoDefault`, which never raises there). -/
def infoDefaultStr (c : Clade) (terminal : Bool) : Str :=
  if terminal || c.confidence.isNone then
    ':' :: fmtNum 5 (blOrZero c.branch_length) ++ getComment c
  else
    fmtNum 2 (c.confidence.getD (.int 0)) ++
      ':' :: fmtNum 5 (blOrZero c.branch_length) ++ getComment c

mutual
/-- Recursive reference rendering of one clade in the writer's default
mode (proved below to agree with the worklist-based `newickize`). -/
def renderClade : Clade → Str
  | .mk nm bl cf cm cl hp co =>
    if cl.isEmpty then
      writerLabel (labelStr (.mk nm bl cf cm cl hp co)) ++
        infoDefaultStr (.mk nm bl cf cm cl hp co) true
    else
      '(' :: renderList cl ++
        ')' :: writerLabel (labelStr (.mk nm bl cf cm cl hp co)) ++
        infoDefaultStr (.mk nm bl cf cm cl hp co) false
/-- Children renderings joined by commas. -/
def renderList : List Clade → Str
  | [] => []
  | [c] => renderClade c
  | c :: l => renderClade c ++ ',' :: renderList l
end

/-- A name the label escaping round-trips: nonempty, with no backslash,
single quote or newline. -/
def nameOK : Option Str → Bool
  | none => true
  | some s => !s.isEmpty && s.all fun ch => ch ≠ bslash && ch ≠ squote && ch ≠ '\n'

mutual
/-- The class of trees for which the default-mode write → parse round
trip is exact: every node has a branch length that survives the
5-decimal `%` format → `float()` round trip; names are absent or
round-trippable (`nameOK`); leaves carry no confidence; an internal
node carries either a confidence that survives the 2-decimal format →
`_parse_confidence` round trip (and then no name), or no confidence and
a name that `_parse_confidence` does not reinterpret; and the
(never-assigned) `coment` attribute is absent. -/
def wOK : Clade → Bool
  | .mk nm bl cf _ cl _ co =>
    nameOK nm &&
    (match bl with
     | some (.float b) => pyFloat (fmtFixed 5 b) = some (.float b)
     | _ => false) &&
    (if cl.isEmpty then cf.isNone
     else
       match cf with
       | none => (match nm with | some s => (parseConfidence s).isNone | none => true)
       | some v => nm.isNone &&
           (parseConfidence (fmtNum 2 v) = some (.float (numToDec v)) : Bool)) &&
    co.isNone && wListOK cl
/-- `wOK` for every clade in a list. -/
def wListOK : List Clade → Bool
  | [] => true
  | c :: l => wOK c && wListOK l
end

mutual
/-- The image of a clade under the default-mode write → parse round
trip: topology, names and branch lengths are unchanged; an integer
confidence comes back as the equal float; the comment is lost (the
writer's `coment` typo) and the temporary parent flag is absent. -/
def expectedImage : Clade → Clade
  | .mk nm bl cf _ cl _ _ =>
    .mk nm bl (cf.map fun v => .float (numToDec v)) none (expectedList cl) false none
/-- `expectedImage` on a list of clades. -/
def expectedList : List Clade → List Clade
  | [] => []
  | c :: l => expectedImage c :: expectedList l
end

/-- The label round trip performed by the Writer/Parser pair: escape a
name with the writer's label logic, tokenize the result, and read the
name the parser would store (the quoted token's raw inner text, or the
unquoted token's text). -/
def unescapeEscape (name : Str) : Option Str :=
  match tokenize (writerLabel name) with
  | [.quoted s] => some s
  | [.unquoted s] => some s
  | _ => none

/-- A leaf clade with the given name (as the parser builds it). -/
def leafNamed (nm : Str) : Clade := ⟨some nm, none, none, none, [], false, none⟩

/-- The two leaves `A` and `B`. -/
def abChildren : List Clade := [leafNamed ['A'], leafNamed ['B']]

/-- The tokens of a segment up to (excluding) the first semicolon — the
tokens the `_parse_tree` loop consumes before breaking. -/
def beforeSemi (ts : List Tok) : List Tok := ts.takeWhile (· ≠ Tok.semi)

/-- Number of open-parenthesis tokens. -/
def countOpens (ts : List Tok) : Nat := ts.countP (· = Tok.popen)

/-- Number of close-parenthesis tokens. -/
def countCloses (ts : List Tok) : Nat := ts.countP (· = Tok.pclose)

mutual
/-- No clade in this subtree carries the temporary parent attribute. -/
def cleanParent : Clade → Bool
  | .mk _ _ _ _ cl hp _ => !hp && cleanParentList cl
/-- `cleanParent` over a list. -/
def cleanParentList : List Clade → Bool
  | [] => true
  | c :: l => cleanParent c && cleanParentList l
end

/-- The mantissa shapes the edge-length pattern can match: a nonempty
digit run, or an optional digit run, a dot and a nonempty digit run. -/
def NumShape (m : Str) : Prop :=
  (m ≠ [] ∧ m.all isDig = true) ∨
  (∃ d1 d2, d2 ≠ [] ∧ d1.all isDig = true ∧ d2.all isDig = true ∧ m = d1 ++ '.' :: d2)

/-- The exponent shapes the edge-length pattern can match. -/
def ExpShape (x : Str) : Prop :=
  x = [] ∨
  ∃ e sg ds, (e = 'e' ∨ e = 'E') ∧ (sg = [] ∨ sg = ['+'] ∨ sg = ['-']) ∧
    ds ≠ [] ∧ ds.all isDig = true ∧ x = e :: sg ++ ds

/-- The shape of every payload of an edge-length token: optional space,
optional sign, mantissa, optional exponent. -/
def PayloadShape (p : Str) : Prop :=
  ∃ sp sg m x, (sp = [] ∨ sp = [' ']) ∧ (sg = [] ∨ sg = ['+'] ∨ sg = ['-']) ∧
    NumShape m ∧ ExpShape x ∧ p = sp ++ sg ++ m ++ x

/-- The branch-length decimal of a clade whose branch length has the
`some (.float b)` form `wOK` guarantees. -/
def blDec : Option PyNum → Dec
  | some (.float b) => b
  | _ => ⟨0, 0⟩

/-- The label text a node contributes in default mode: the confidence
numeral for an internal node carrying a confidence (the writer prints it
before the colon, and the parser first reads it back as a name),
otherwise the node's name. -/
def preName (cf : Option PyNum) (nm : Option Str) : Option Str :=
  match cf with
  | some v => some (fmtNum 2 v)
  | none => nm

/-- The tokens of a rendered label: nothing for an absent or empty name,
an unquoted token for a name made of label characters, a quoted token
otherwise (for the names `wOK` admits, the escape map and the raw slice
are both the identity). -/
def labelToks : Option Str → List Tok
  | none => []
  | some s =>
    if s.isEmpty then []
    else if s.all isLabelChar then [Tok.unquoted s]
    else [Tok.quoted s]

mutual
/-- The token list the tokenizer produces from the default-mode
rendering of a `wOK` clade (proved below). -/
def cladeToks : Clade → List Tok
  | .mk nm bl cf _ cl _ _ =>
    if cl.isEmpty then
      labelToks nm ++ [Tok.edge (fmtFixed 5 (blDec bl))]
    else
      Tok.popen :: cladeListToks cl ++ Tok.pclose ::
        labelToks (preName cf nm) ++ [Tok.edge (fmtFixed 5 (blDec bl))]
/-- Children token lists joined by comma tokens. -/
def cladeListToks : List Clade → List Tok
  | [] => []
  | [c] => cladeToks c
  | c :: l => cladeToks c ++ Tok.comma :: cladeListToks l
end

mutual
/-- Number of open-parenthesis tokens in a clade's rendering. -/
def opensOf : Clade → Nat
  | .mk _ _ _ _ cl _ _ => if cl.isEmpty then 0 else 1 + listOpens cl
/-- `opensOf` summed over a child list. -/
def listOpens : List Clade → Nat
  | [] => 0
  | c :: l => opensOf c + listOpens l
end

/-- The cursor clade after the token loop has consumed a `wOK` clade's
tokens starting from a fresh cursor carrying parent flag `hp`: the
children are already processed (they are the expected images), while
the node's own label — its name, or the confidence numeral — is still
held in `name`, awaiting the final `process_clade`. -/
def preOf (c : Clade) (hp : Bool) : Clade :=
  match c with
  | .mk nm bl cf _ cl _ _ =>
    if cl.isEmpty then ⟨nm, bl, none, none, [], hp, none⟩
    else ⟨preName cf nm, bl, none, none, expectedList cl, hp, none⟩

/-- The output text contributed by one worklist item in default mode. -/
def itemStr : WItem → Str
  | .node c => renderClade c
  | .marker c => ')' :: writerLabel (labelStr c) ++ infoDefaultStr c false
  | .commaM => [',']

/-- A concrete tree in the exact-round-trip class: root confidence 95,
branch length 0.1, leaves `A:0.25` and `B:0.5`. -/
def c1WitnessClade : Clade :=
  .mk none (some (.float ⟨1, 1⟩)) (some (.int 95)) none
    [.mk (some ['A']) (some (.float ⟨25, 2⟩)) none none [] false none,
     .mk (some ['B']) (some (.float ⟨5, 1⟩)) none none [] false none]
    false none

/-- The invariant the parser maintains over its cursor chain: every
clade already attached below a chain element is hereditarily free of
the temporary parent attribute, and the bottom element (the
`root_clade`) does not carry one. -/
def stackInv (st : PState) : Prop :=
  (∀ c ∈ st.top :: st.above, cleanParentList c.clades = true) ∧
  (lastOf st.top st.above).hasParent = false

/-- Depth simulation of the token loop's parent chain (the length of
the cursor's `above` stack): `(` pushes a parent, a comma seen at the
root synthesizes a new root above the current clade, `)` pops.  Returns
`true` iff, before the first semicolon, a close-paren token arrives with
no parent to return to — the code path where `process_clade` returns
`None` and `_parse_tree` raises "Parenthesis mismatch.". -/
def pcloseAtRoot : List Tok → Nat → Bool
  | [], _ => false
  | t :: rest, d =>
    match t with
    | .popen => pcloseAtRoot rest (d + 1)
    | .comma => pcloseAtRoot rest (if d = 0 then 1 else d)
    | .pclose => if d = 0 then true else pcloseAtRoot rest (d - 1)
    | .semi => false
    | _ => pcloseAtRoot rest d

/-! ### Theorems -/

theorem qScan_length : ∀ (cs content r : Str), qScan cs = some (content, r) →
    r.length < cs.length
  | [] => by intro content r h; simp [qScan] at h
  | [c] => by
    intro content r h
    simp only [qScan] at h
    split at h
    · simp only [Option.some.injEq, Prod.mk.injEq] at h
      simp [← h.2]
    · simp at h
  | c :: d :: rest2 => by
    intro content r h
    simp only [qScan] at h
    split at h
    · simp only [Option.some.injEq, Prod.mk.injEq] at h
      simp [← h.2]
    · split at h
      · split at h
        · simp only [Option.map_eq_some'] at h
          obtain ⟨p, hp, he⟩ := h
          rw [Prod.mk.injEq] at he
          have := qScan_length (d :: rest2) p.1 p.2 (by simpa using hp)
          rw [← he.2]
          simp at this ⊢
          omega
        · split at h
          · rename_i content0 r0 hrec
            simp only [Option.some.injEq, Prod.mk.injEq] at h
            have := qScan_length rest2 content0 r0 hrec
            rw [← h.2]
            simp at this ⊢
            omega
          · simp only [Option.map_eq_some'] at h
            obtain ⟨p, hp, he⟩ := h
            rw [Prod.mk.injEq] at he
            have := qScan_length (d :: rest2) p.1 p.2 (by simpa using hp)
            rw [← he.2]
            simp at this ⊢
            omega
      · simp only [Option.map_eq_some'] at h
        obtain ⟨p, hp, he⟩ := h
        rw [Prod.mk.injEq] at he
        have := qScan_length (d :: rest2) p.1 p.2 (by simpa using hp)
        rw [← he.2]
        simp at this ⊢
        omega
termination_by cs => cs.length

theorem brScan_length : ∀ (cs content r : Str), brScan cs = some (content, r) →
    r.length < cs.length
  | [] => by intro content r h; simp [brScan] at h
  | [c] => by
    intro content r h
    simp only [brScan] at h
    split at h
    · simp only [Option.some.injEq, Prod.mk.injEq] at h
      simp [← h.2]
    · simp at h
  | c :: d :: rest2 => by
    intro content r h
    simp only [brScan] at h
    split at h
    · simp only [Option.some.injEq, Prod.mk.injEq] at h
      simp [← h.2]
    · split at h
      · split at h
        · simp only [Option.map_eq_some'] at h
          obtain ⟨p, hp, he⟩ := h
          rw [Prod.mk.injEq] at he
          have := brScan_length (d :: rest2) p.1 p.2 (by simpa using hp)
          rw [← he.2]
          simp at this ⊢
          omega
        · split at h
          · rename_i content0 r0 hrec
            simp only [Option.some.injEq, Prod.mk.injEq] at h
            have := brScan_length rest2 content0 r0 hrec
            rw [← h.2]
            simp at this ⊢
            omega
          · simp only [Option.map_eq_some'] at h
            obtain ⟨p, hp, he⟩ := h
            rw [Prod.mk.injEq] at he
            have := brScan_length (d :: rest2) p.1 p.2 (by simpa using hp)
            rw [← he.2]
            simp at this ⊢
            omega
      · simp only [Option.map_eq_some'] at h
        obtain ⟨p, hp, he⟩ := h
        rw [Prod.mk.injEq] at he
        have := brScan_length (d :: rest2) p.1 p.2 (by simpa using hp)
        rw [← he.2]
        simp at this ⊢
        omega
termination_by cs => cs.length

theorem takeWhile_dropWhile_length (p : Char → Bool) (cs : Str) :
    (cs.takeWhile p).length + (cs.dropWhile p).length = cs.length := by
  induction cs with
  | nil => simp
  | cons c cs ih =>
    by_cases h : p c
    · simp only [List.takeWhile_cons, List.dropWhile_cons, h, if_pos]
      simp at ih ⊢
      omega
    · simp [List.takeWhile_cons, List.dropWhile_cons, h]

theorem mantScan_length (cs m r : Str) (h : mantScan cs = some (m, r)) :
    r.length < cs.length := by
  have hlen := takeWhile_dropWhile_length isDig cs
  unfold mantScan at h
  split at h
  · rename_i r2 heq
    have hlen2 := takeWhile_dropWhile_length isDig r2
    have hr2 : r2.length + 1 ≤ cs.length := by
      have : ('.' :: r2).length ≤ cs.length := by
        rw [← heq]; omega
      simpa using this
    split at h
    · rename_i hne
      simp only [Option.some.injEq, Prod.mk.injEq] at h
      have : (r2.takeWhile isDig).length ≠ 0 := by
        simpa [List.length_eq_zero] using hne
      rw [← h.2]
      omega
    · split at h
      · rename_i hne
        simp only [Option.some.injEq, Prod.mk.injEq] at h
        have : (cs.takeWhile isDig).length ≠ 0 := by
          simpa [List.length_eq_zero] using hne
        rw [← h.2]
        omega
      · simp at h
  · split at h
    · rename_i hne
      simp only [Option.some.injEq, Prod.mk.injEq] at h
      have : (cs.takeWhile isDig).length ≠ 0 := by
        simpa [List.length_eq_zero] using hne
      rw [← h.2]
      omega
    · simp at h

theorem expScan_length (cs : Str) : (expScan cs).2.length ≤ cs.length := by
  unfold expScan
  split
  · rename_i c d r2
    have hl1 := takeWhile_dropWhile_length isDig r2
    have hl2 := takeWhile_dropWhile_length isDig (d :: r2)
    split
    · split
      · split
        · simp; omega
        · simp
      · split
        · simp at hl2 ⊢
          omega
        · simp
    · simp
  · simp

theorem numScan_length (cs m r : Str) (h : numScan cs = some (m, r)) :
    r.length < cs.length := by
  unfold numScan at h
  split at h
  · rename_i mm r1 hmant
    simp only [Option.some.injEq, Prod.mk.injEq] at h
    have h1 := mantScan_length _ _ _ hmant
    have h2 := expScan_length r1
    have h3 : (signScan cs).2.length ≤ cs.length := by
      unfold signScan
      split
      · split
        · simp
        · simp
      · simp
    rw [← h.2]
    omega
  · simp at h

theorem edgeScan_length (cs m r : Str) (h : edgeScan cs = some (m, r)) :
    r.length < cs.length := by
  unfold edgeScan at h
  split at h
  · rename_i rest
    simp only [Option.map_eq_some'] at h
    obtain ⟨p, hp, he⟩ := h
    have := numScan_length _ _ _ hp
    rw [Prod.mk.injEq] at he
    rw [← he.2]
    simp
    omega
  · exact numScan_length _ _ _ h

theorem tokStep_length (cs : Str) (ot : Option Tok) (r : Str)
    (h : tokStep cs = some (ot, r)) : r.length < cs.length := by
  unfold tokStep at h
  split at h
  · simp at h
  · rename_i c rest
    have hlab := takeWhile_dropWhile_length isLabelChar rest
    split at h
    · simp at h; rw [← h.2]; simp
    · split at h
      · simp at h; rw [← h.2]; simp
      · split at h
        · simp at h; rw [← h.2]; simp; omega
        · split at h
          · split at h
            · rename_i payload r0 hscan
              simp at h
              have := edgeScan_length rest payload r0 hscan
              rw [← h.2]; simp; omega
            · simp at h; rw [← h.2]; simp
          · split at h
            · simp at h; rw [← h.2]; simp
            · split at h
              · split at h
                · rename_i content r0 hscan
                  simp at h
                  have := brScan_length rest content r0 hscan
                  rw [← h.2]; simp; omega
                · simp at h; rw [← h.2]; simp
              · split at h
                · split at h
                  · rename_i content r0 hscan
                    simp at h
                    have := qScan_length rest content r0 hscan
                    rw [← h.2]; simp; omega
                  · simp at h; rw [← h.2]; simp
                · split at h
                  · simp at h; rw [← h.2]; simp
                  · split at h
                    · simp at h; rw [← h.2]; simp
                    · simp at h; rw [← h.2]; simp

theorem tokStep_cons_isSome (c : Char) (rest : Str) :
    (tokStep (c :: rest)).isSome := by
  unfold tokStep
  repeat' split
  all_goals simp_all

theorem tokenizeAux_nil (f : Nat) : tokenizeAux f [] = [] := by
  cases f <;> simp [tokenizeAux, tokStep]

theorem tokenizeAux_congr : ∀ (f1 f2 : Nat) (cs : Str), cs.length ≤ f1 →
    cs.length ≤ f2 → tokenizeAux f1 cs = tokenizeAux f2 cs
  | 0, f2, cs => by
    intro h1 _
    have : cs = [] := by
      cases cs
      · rfl
      · simp at h1
    rw [this, tokenizeAux_nil, tokenizeAux_nil]
  | f1 + 1, f2, cs => by
    intro h1 h2
    match cs with
    | [] => rw [tokenizeAux_nil, tokenizeAux_nil]
    | c :: rest =>
      match f2 with
      | 0 => simp at h2
      | f2 + 1 =>
        have hsome := tokStep_cons_isSome c rest
        match hstep : tokStep (c :: rest) with
        | none => rw [hstep] at hsome; simp at hsome
        | some (ot, r) =>
          have hlen := tokStep_length _ _ _ hstep
          have hr1 : r.length ≤ f1 := by
            simp at h1 hlen; omega
          have hr2 : r.length ≤ f2 := by
            simp at h2 hlen; omega
          match ot with
          | some t =>
            show tokenizeAux (f1 + 1) (c :: rest) = tokenizeAux (f2 + 1) (c :: rest)
            rw [tokenizeAux, tokenizeAux, hstep]
            simp only
            rw [tokenizeAux_congr f1 f2 r hr1 hr2]
          | none =>
            show tokenizeAux (f1 + 1) (c :: rest) = tokenizeAux (f2 + 1) (c :: rest)
            rw [tokenizeAux, tokenizeAux, hstep]
            simp only
            rw [tokenizeAux_congr f1 f2 r hr1 hr2]

/-- Unfolding rule for `tokenize` in terms of one `tokStep`. -/
theorem tokenize_step (c : Char) (rest : Str) :
    tokenize (c :: rest) =
      match tokStep (c :: rest) with
      | some (some t, r) => t :: tokenize r
      | some (none, r) => tokenize r
      | none => [] := by
  have hsome := tokStep_cons_isSome c rest
  match hstep : tokStep (c :: rest) with
  | none => rw [hstep] at hsome; simp at hsome
  | some (ot, r) =>
    have hlen := tokStep_length _ _ _ hstep
    unfold tokenize
    simp only [List.length_cons]
    rw [tokenizeAux, hstep]
    match ot with
    | some t =>
      simp only
      rw [tokenizeAux_congr (rest.length) (r.length) r (by simp at hlen; omega) le_rfl]
    | none =>
      simp only
      rw [tokenizeAux_congr (rest.length) (r.length) r (by simp at hlen; omega) le_rfl]

theorem tokenize_nil : tokenize [] = [] := rfl

theorem natDigitsAux_congr : ∀ (f1 f2 n : Nat), n < f1 → n < f2 →
    natDigitsAux f1 n = natDigitsAux f2 n
  | 0, _, n => by intro h1 _; omega
  | _ + 1, 0, n => by intro _ h2; omega
  | f1 + 1, f2 + 1, n => by
    intro h1 h2
    unfold natDigitsAux
    split
    · rfl
    · rename_i h10
      have hd : n / 10 < f1 ∧ n / 10 < f2 := by omega
      rw [natDigitsAux_congr f1 f2 (n / 10) hd.1 hd.2]

theorem natDigits_step (n : Nat) :
    natDigits n = if n < 10 then [digitChar n]
      else natDigits (n / 10) ++ [digitChar (n % 10)] := by
  unfold natDigits
  conv_lhs => rw [natDigitsAux]
  split
  · rfl
  · rw [natDigitsAux_congr n (n / 10 + 1) (n / 10) (by omega) (by omega)]

theorem natDigits_ne_nil (n : Nat) : natDigits n ≠ [] := by
  rw [natDigits_step]
  split <;> simp

theorem isDig_digitChar (d : Nat) (h : d < 10) : isDig (digitChar d) := by
  interval_cases d <;> decide

theorem natDigits_all_dig (n : Nat) : ∀ c ∈ natDigits n, isDig c := by
  induction n using Nat.strong_induction_on with
  | _ n ih =>
    rw [natDigits_step]
    split
    · intro c hc
      simp at hc
      rw [hc]
      exact isDig_digitChar n (by omega)
    · rename_i h10
      intro c hc
      simp at hc
      rcases hc with hc | hc
      · exact ih (n / 10) (by omega) c hc
      · rw [hc]
        exact isDig_digitChar (n % 10) (by omega)

/-! ### Claim theorems (with their supporting lemmas) -/

/-- C5: with default flags, `(A,B)95;` parses to a root with no name and
integer confidence 95; `(A,B)0.95;` to a root with float confidence
0.95 (the decimal `⟨95, 2⟩`, whose value is 0.95); `(A,B)clade1;` to a
root named `clade1` with no confidence; and in each case the leaves `A`
and `B` keep their names and get no confidence (the heuristic never
touches leaves). -/
theorem c5_confidence_disambiguation :
    parseTree {} ("(A,B)95;".toList) =
      .ok { root := ⟨none, none, some (.int 95), none, abChildren, false, none⟩ } ∧
    parseTree {} ("(A,B)0.95;".toList) =
      .ok { root := ⟨none, none, some (.float ⟨95, 2⟩), none, abChildren, false, none⟩ } ∧
    Dec.toRat ⟨95, 2⟩ = 0.95 ∧
    parseTree {} ("(A,B)clade1;".toList) =
      .ok { root := ⟨some ("clade1".toList), none, none, none, abChildren, false, none⟩ } := by
  refine ⟨rfl, rfl, ?_, rfl⟩
  norm_num [Dec.toRat]

/-- C6: parsing `A,B;` (no enclosing parentheses) yields a single tree
whose root is a synthesized unnamed clade with exactly the two leaf
children `A` and `B`, in order. -/
theorem c6_implicit_outer_parens :
    parseNewick {} ("A,B;".toList) =
      .ok [{ root := ⟨none, none, none, none, abChildren, false, none⟩ }] := rfl

/-- C4 (counterexample): the two-tree text `(A,B);(C,D);` on a single
line is buffered as one segment, and `_parse_tree` raises the
"Text after semicolon" `NewickError` at the second tree's `(` — it does
not yield two trees. -/
theorem c4_single_line_counterexample :
    parseNewick {} ("(A,B);(C,D);".toList) =
      .error (.newick ("Text after semicolon in Newick tree: (".toList)) := rfl

/-- C4 (amended): with the trees on separate lines —
`(A,B);\n(C,D);` — parsing yields exactly the two trees, in order, and
writing those two trees with the `write` entry point returns the count
2. -/
theorem c4_multi_tree_stream :
    parseNewick {} ("(A,B);\n(C,D);".toList) =
      .ok [{ root := ⟨none, none, none, none, abChildren, false, none⟩ },
           { root := ⟨none, none, none, none,
               [leafNamed ['C'], leafNamed ['D']], false, none⟩ }] ∧
    writeTrees {}
      [{ root := ⟨none, none, none, none, abChildren, false, none⟩ },
       { root := ⟨none, none, none, none,
           [leafNamed ['C'], leafNamed ['D']], false, none⟩ }] = some 2 := ⟨rfl, rfl⟩

/-- C3 (code bug): parsing `(A[note],B);` stores the comment `note` on
leaf `A`, but serializing the tree appends no `[note]` text in any
mode — the default mode emits only branch lengths and the `plain` mode
only the bare labels — because `_get_comment` reads the misspelled
attribute `coment`, which nothing ever sets. -/
theorem c3_comment_dropped_by_writer :
    parseTree {} ("(A[note],B);".toList) =
      .ok { root := ⟨none, none, none, none,
              [⟨some ['A'], none, none, some ("note".toList), [], false, none⟩,
               leafNamed ['B']], false, none⟩ } ∧
    toStrings {}
      [{ root := ⟨none, none, none, none,
           [⟨some ['A'], none, none, some ("note".toList), [], false, none⟩,
            leafNamed ['B']], false, none⟩ }] =
      some [("(A:0.00000,B:0.00000):0.00000;".toList)] ∧
    toStrings { plain := true }
      [{ root := ⟨none, none, none, none,
           [⟨some ['A'], none, none, some ("note".toList), [], false, none⟩,
            leafNamed ['B']], false, none⟩ }] =
      some [("(A,B);".toList)] := ⟨rfl, rfl, rfl⟩

theorem takeWhile_all_self (p : Char → Bool) (l : Str) (h : l.all p = true) :
    l.takeWhile p = l ∧ l.dropWhile p = [] := by
  induction l with
  | nil => simp
  | cons c cs ih =>
    simp only [List.all_cons, Bool.and_eq_true] at h
    rw [List.takeWhile_cons, List.dropWhile_cons]
    simp only [h.1, if_true]
    exact ⟨by rw [(ih h.2).1], (ih h.2).2⟩

theorem isLabelChar_ne_parens (c : Char) (h : isLabelChar c = true) :
    c ≠ '(' ∧ c ≠ ')' := by
  simp only [isLabelChar, Bool.and_eq_true, decide_eq_true_eq] at h
  obtain ⟨⟨⟨⟨⟨⟨⟨⟨hsp, h1⟩, h2⟩, h3⟩, h4⟩, h5⟩, h6⟩, h7⟩, h8⟩ := h
  exact ⟨h1, h2⟩

theorem tokenize_unquoted (s : Str) (hne : s ≠ []) (hall : s.all isLabelChar = true) :
    tokenize s = [Tok.unquoted s] := by
  match s with
  | [] => exact absurd rfl hne
  | c :: rest =>
    simp only [List.all_cons, Bool.and_eq_true] at hall
    obtain ⟨hne1, hne2⟩ := isLabelChar_ne_parens c hall.1
    obtain ⟨ht, hd⟩ := takeWhile_all_self isLabelChar rest hall.2
    have hstep : tokStep (c :: rest) = some (some (Tok.unquoted (c :: rest)), []) := by
      simp only [tokStep]
      rw [if_neg hne1, if_neg hne2, if_pos hall.1, ht, hd]
    rw [tokenize_step, hstep]
    rfl

theorem escLabel_clean (s : Str) (h : ∀ ch ∈ s, ch ≠ bslash ∧ ch ≠ squote) :
    escLabel s = s := by
  induction s with
  | nil => rfl
  | cons c cs ih =>
    have hc := h c (List.mem_cons_self c cs)
    simp only [escLabel, List.flatMap_cons, if_neg hc.1, if_neg hc.2]
    simp only [escLabel] at ih
    rw [ih fun ch hm => h ch (List.mem_cons_of_mem c hm)]
    rfl

theorem qScan_clean (s : Str) (h : ∀ ch ∈ s, ch ≠ bslash ∧ ch ≠ squote) :
    qScan (s ++ [squote]) = some (s, []) := by
  induction s with
  | nil => simp [qScan]
  | cons c cs ih =>
    have hc := h c (List.mem_cons_self c cs)
    have hrest : qScan (cs ++ [squote]) = some (cs, []) :=
      ih fun ch hm => h ch (List.mem_cons_of_mem c hm)
    match hcs : cs ++ [squote] with
    | [] => exact absurd hcs (by simp)
    | d :: rest2 =>
      rw [List.cons_append, hcs]
      simp only [qScan]
      rw [if_neg hc.2, if_neg hc.1, ← hcs, hrest]
      rfl

theorem tokenize_quoted (s : Str) (h : ∀ ch ∈ s, ch ≠ bslash ∧ ch ≠ squote) :
    tokenize (squote :: s ++ [squote]) = [Tok.quoted s] := by
  have hstep : tokStep (squote :: (s ++ [squote])) =
      some (some (Tok.quoted s), []) := by
    simp only [tokStep]
    rw [if_neg (by decide), if_neg (by decide), if_neg (by decide),
      if_neg (by decide), if_neg (by decide), if_neg (by decide),
      if_pos trivial, qScan_clean s h]
  show tokenize (squote :: (s ++ [squote])) = [Tok.quoted s]
  rw [tokenize_step, hstep]
  rfl

/-- C2 (amended): escape-then-unescape is the identity on every nonempty
name that either consists wholly of unquoted-label characters (the bare
path) or contains neither a backslash nor a single quote (the quoted
path, where the writer's escape map and the parser's raw slice agree). -/
theorem c2_unescape_escape (name : Str) (hne : name ≠ [])
    (hsafe : name.all isLabelChar = true ∨
      ∀ ch ∈ name, ch ≠ bslash ∧ ch ≠ squote) :
    unescapeEscape name = some name := by
  by_cases hall : name.all isLabelChar = true
  · unfold unescapeEscape writerLabel
    rw [if_neg (by simp [List.isEmpty_iff, hne]), if_pos hall,
      tokenize_unquoted name hne hall]
  · have hclean : ∀ ch ∈ name, ch ≠ bslash ∧ ch ≠ squote := by
      rcases hsafe with h | h
      · exact absurd h hall
      · exact h
    unfold unescapeEscape writerLabel
    rw [if_neg (by simp [List.isEmpty_iff, hne]), if_neg hall,
      escLabel_clean name hclean, tokenize_quoted name hclean]

theorem c2_unescape_escape_witness :
    (['a', ' ', 'b'] : Str) ≠ [] ∧
      unescapeEscape ['a', ' ', 'b'] = some ['a', ' ', 'b'] :=
  ⟨by decide, c2_unescape_escape ['a', ' ', 'b'] (by decide)
    (Or.inr (by decide))⟩

/-- C2 (counterexample): for the one-character name `'`, the writer
emits the quoted label `'\''`, but the parser stores the raw inner text
of the quoted token without unescaping, yielding the two-character name
`\'` — so `unescape(escape(name)) ≠ name`. -/
theorem c2_quote_counterexample :
    unescapeEscape [squote] = some [bslash, squote] ∧
    [bslash, squote] ≠ [squote] := ⟨rfl, by decide⟩

/-- C1 (counterexample): parse `(A,B);` (every branch length absent),
write it in default mode and re-parse: the writer emits `0.00000` for
the missing branch lengths, so the re-parsed tree carries branch length
`0.0` where the original had none — branch lengths are not equal. -/
theorem c1_roundtrip_counterexample :
    parseTree {} ("(A,B);".toList) =
      .ok { root := ⟨none, none, none, none, abChildren, false, none⟩ } ∧
    toStrings {} [{ root := ⟨none, none, none, none, abChildren, false, none⟩ }] =
      some [("(A:0.00000,B:0.00000):0.00000;".toList)] ∧
    parseNewick {} ("(A:0.00000,B:0.00000):0.00000;".toList) =
      .ok [{ root := ⟨none, some (.float ⟨0, 0⟩), none, none,
              [⟨some ['A'], some (.float ⟨0, 0⟩), none, none, [], false, none⟩,
               ⟨some ['B'], some (.float ⟨0, 0⟩), none, none, [], false, none⟩],
              false, none⟩ }] ∧
    some (PyNum.float ⟨0, 0⟩) ≠ (none : Option PyNum) := ⟨rfl, rfl, rfl, by decide⟩

/-- C8: in `confidence_as_branch_length` mode, the info string for a
terminal call is always `:` followed by `max_confidence` rendered by
the confidence format, regardless of the clade's own confidence field;
an internal node's info string carries its own confidence; and
serializing a leaf clade emits exactly its label followed by that
full-support info string. -/
theorem c8_confidence_as_branch_length (mc : Dec) (fc : Nat) (c : Clade) :
    makeInfoCAB mc fc c true = some (':' :: fmtFixed fc mc ++ getComment c) ∧
    (∀ v, c.confidence = some v →
      makeInfoCAB mc fc c false = some (':' :: fmtNum fc v ++ getComment c)) ∧
    (c.clades = [] →
      newickize (makeInfoCAB mc fc) c =
        some (writerLabel (labelStr c) ++ ':' :: fmtFixed fc mc ++ getComment c)) := by
  refine ⟨rfl, ?_, ?_⟩
  · intro v hv
    simp [makeInfoCAB, hv]
  · intro hleaf
    cases c with
    | mk nm bl cf cm cl hp co =>
      simp only at hleaf
      subst hleaf
      simp [newickize, cladeSize, cladeListSize, wLoop, makeInfoCAB]

/-- C8 witness: at `max_confidence = 1.0` (the default) and the default
`%1.2f` format, a leaf named `A` whose own confidence is 0.3 is written
as `A:1.00`, and an internal node with confidence 95 emits `:95.00`. -/
theorem c8_confidence_as_branch_length_witness :
    (⟨some ['A'], none, some (.float ⟨3, 1⟩), none, [], false, none⟩ : Clade).clades = [] ∧
    newickize (makeInfoCAB ⟨1, 0⟩ 2)
      ⟨some ['A'], none, some (.float ⟨3, 1⟩), none, [], false, none⟩ =
      some (writerLabel (labelStr ⟨some ['A'], none, some (.float ⟨3, 1⟩), none, [], false, none⟩) ++
        ':' :: fmtFixed 2 ⟨1, 0⟩ ++
        getComment ⟨some ['A'], none, some (.float ⟨3, 1⟩), none, [], false, none⟩) ∧
    makeInfoCAB ⟨1, 0⟩ 2 ⟨none, none, some (.int 95), none, abChildren, false, none⟩ false =
      some (':' :: fmtNum 2 (.int 95) ++
        getComment ⟨none, none, some (.int 95), none, abChildren, false, none⟩) :=
  ⟨rfl,
   (c8_confidence_as_branch_length ⟨1, 0⟩ 2
     ⟨some ['A'], none, some (.float ⟨3, 1⟩), none, [], false, none⟩).2.2 rfl,
   (c8_confidence_as_branch_length ⟨1, 0⟩ 2
     ⟨none, none, some (.int 95), none, abChildren, false, none⟩).2.1 (.int 95) rfl⟩

theorem applyHeuristic_clades (fl : PFlags) (c : Clade) :
    (applyHeuristic fl c).clades = c.clades := by
  unfold applyHeuristic
  split
  · split <;> rfl
  · rfl

theorem applyHeuristic_hasParent (fl : PFlags) (c : Clade) :
    (applyHeuristic fl c).hasParent = c.hasParent := by
  unfold applyHeuristic
  split
  · split <;> rfl
  · rfl

theorem cleanParent_mk (nm : Option Str) (bl cf : Option PyNum) (cm : Option Str)
    (cl : List Clade) (hp : Bool) (co : Option Str) :
    cleanParent (.mk nm bl cf cm cl hp co) = (!hp && cleanParentList cl) := by
  rw [cleanParent]

theorem cleanParent_iff (c : Clade) :
    cleanParent c = (!c.hasParent && cleanParentList c.clades) := by
  cases c
  rw [cleanParent]

theorem cleanParentList_append (l1 l2 : List Clade) :
    cleanParentList (l1 ++ l2) = (cleanParentList l1 && cleanParentList l2) := by
  induction l1 with
  | nil => simp [cleanParentList]
  | cons c l ih =>
    simp only [List.cons_append]
    rw [cleanParentList, cleanParentList, ih, Bool.and_assoc]

theorem lastOf_mapLast (f : Clade → Clade) (c : Clade) (cs : List Clade) :
    lastOf (mapLast f c cs).1 (mapLast f c cs).2 = f (lastOf c cs) := by
  induction cs generalizing c with
  | nil => rfl
  | cons d rest ih => simpa [mapLast, lastOf] using ih d

theorem lastOf_mem (q : Clade) (qs : List Clade) :
    lastOf q qs = q ∨ lastOf q qs ∈ qs := by
  induction qs generalizing q with
  | nil => left; rfl
  | cons r rs ih =>
    rcases ih r with hh | hh
    · right
      simp only [lastOf]
      simp [hh]
    · right
      simp only [lastOf]
      simp [hh]

theorem cleanParent_processed (fl : PFlags) (c : Clade)
    (h : cleanParentList c.clades = true) :
    cleanParent { applyHeuristic fl c with hasParent := false } = true := by
  rw [cleanParent_iff]
  simp [applyHeuristic_clades, h]

theorem runToks_inv (fl : PFlags) : ∀ (toks : List Tok) (st : PState),
    stackInv st → ∀ st2 rem, runToks fl toks st = .ok (st2, rem) → stackInv st2 := by
  intro toks
  induction toks with
  | nil =>
    intro st hinv st2 rem h
    simp only [runToks, Except.ok.injEq, Prod.mk.injEq] at h
    rw [← h.1]
    exact hinv
  | cons t rest ih =>
    intro st hinv st2 rem h
    obtain ⟨hmem, hbot⟩ := hinv
    have hfield : ∀ top2 : Clade, top2.clades = st.top.clades →
        top2.hasParent = st.top.hasParent →
        stackInv { st with top := top2 } := by
      intro top2 hcl hhp
      constructor
      · intro c hc
        simp at hc
        rcases hc with hc | hc
        · rw [hc, hcl]; exact hmem st.top (by simp)
        · exact hmem c (by simp [hc])
      · cases habove : st.above with
        | nil =>
          rw [habove] at hbot
          simpa [lastOf, hhp] using hbot
        | cons p ps =>
          rw [habove] at hbot
          simpa [lastOf] using hbot
    cases t with
    | quoted s =>
      simp only [runToks] at h
      refine ih _ ?_ st2 rem h
      exact hfield _ rfl rfl
    | comment s =>
      simp only [runToks] at h
      split at h
      · refine ih _ ?_ st2 rem h
        exact hfield _ rfl rfl
      · refine ih _ ?_ st2 rem h
        exact hfield _ rfl rfl
    | popen =>
      simp only [runToks] at h
      refine ih _ ⟨?_, ?_⟩ st2 rem h
      · intro c hc
        simp at hc
        rcases hc with hc | hc | hc
        · simp [hc, newClade, cleanParentList]
        · rw [hc]; exact hmem st.top (by simp)
        · exact hmem c (by simp [hc])
      · simpa [lastOf] using hbot
    | comma =>
      simp only [runToks] at h
      cases habove : st.above with
      | nil =>
        rw [habove] at h
        simp only at h
        have htop : cleanParentList st.top.clades = true := hmem st.top (by simp)
        refine ih _ ⟨?_, ?_⟩ st2 rem h
        · intro c hc
          simp at hc
          rcases hc with hc | hc
          · simp [hc, newClade, cleanParentList]
          · rw [hc, newClade]
            simp only
            rw [cleanParentList, cleanParentList]
            have : cleanParent
                { (applyHeuristic fl { st.top with hasParent := true }) with
                  hasParent := false } = true := by
              rw [cleanParent_iff]
              simp [applyHeuristic_clades, htop]
            simp [this]
        · simp [lastOf, newClade]
      | cons p rest2 =>
        rw [habove] at h
        simp only at h
        have htop : cleanParentList st.top.clades = true := hmem st.top (by simp)
        refine ih _ ⟨?_, ?_⟩ st2 rem h
        · intro c hc
          simp at hc
          rcases hc with hc | hc | hc
          · simp [hc, newClade, cleanParentList]
          · rw [hc]
            simp only
            rw [cleanParentList_append]
            have hp : cleanParentList p.clades = true := hmem p (by simp [habove])
            rw [cleanParentList, cleanParentList]
            simp [hp, cleanParent_processed fl st.top htop]
          · exact hmem c (by simp [habove, hc])
        · cases rest2 with
          | nil =>
            rw [habove] at hbot
            simpa [lastOf] using hbot
          | cons q qs =>
            rw [habove] at hbot
            simpa [lastOf] using hbot
    | pclose =>
      simp only [runToks, processTop] at h
      cases habove : st.above with
      | nil =>
        rw [habove] at h
        simp at h
      | cons p rest2 =>
        rw [habove] at h
        simp only at h
        have htop : cleanParentList st.top.clades = true := hmem st.top (by simp)
        refine ih _ ⟨?_, ?_⟩ st2 rem h
        · intro c hc
          simp at hc
          rcases hc with hc | hc
          · rw [hc]
            simp only
            rw [cleanParentList_append]
            have hp : cleanParentList p.clades = true := hmem p (by simp [habove])
            rw [cleanParentList, cleanParentList]
            simp [hp, cleanParent_processed fl st.top htop]
          · exact hmem c (by simp [habove, hc])
        · cases rest2 with
          | nil =>
            rw [habove] at hbot
            simpa [lastOf] using hbot
          | cons q qs =>
            rw [habove] at hbot
            simpa [lastOf] using hbot
    | semi =>
      simp only [runToks, Except.ok.injEq, Prod.mk.injEq] at h
      rw [← h.1]
      exact ⟨hmem, hbot⟩
    | edge payload =>
      simp only [runToks] at h
      split at h
      · simp at h
      · split at h
        · refine ih _ ?_ st2 rem h
          exact hfield _ rfl rfl
        · refine ih _ ?_ st2 rem h
          exact hfield _ rfl rfl
    | newline =>
      simp only [runToks] at h
      exact ih _ ⟨hmem, hbot⟩ st2 rem h
    | unquoted s =>
      simp only [runToks] at h
      refine ih _ ?_ st2 rem h
      exact hfield _ rfl rfl

/-- C9: for every tree a successful parse returns, no clade reachable
from the root — the root included — carries the temporary parent
attribute: it is deleted whenever a clade is attached to its parent's
child list, and the root never receives one. -/
theorem c9_no_parent_refs (fl : PFlags) (text : Str) (t : NTree)
    (h : parseTree fl text = .ok t) : cleanParent t.root = true := by
  unfold parseTree at h
  simp only [bind, Except.bind] at h
  split at h
  · simp at h
  · rename_i stp hrun
    obtain ⟨st, rem⟩ := stp
    have hinv : stackInv st := by
      refine runToks_inv fl _ _ ⟨?_, ?_⟩ st rem hrun
      · intro c hc
        simp [newClade] at hc
        simp [hc, cleanParentList]
      · simp [lastOf, newClade]
    obtain ⟨hmem, hbot⟩ := hinv
    obtain ⟨top, above, lp, rp⟩ := st
    simp only at hmem hbot h
    split at h
    · simp at h
    · split at h
      · simp at h
      · simp only [Except.ok.injEq] at h
        rw [← h]
        cases above with
        | nil =>
          simp only [finalizeStack, lastOf]
          rw [cleanParent_iff]
          have htop : cleanParentList top.clades = true := hmem top (by simp)
          simp only [lastOf] at hbot
          simp [applyHeuristic_clades, applyHeuristic_hasParent, htop, hbot]
        | cons p rest2 =>
          simp only [finalizeStack]
          rw [lastOf_mapLast]
          have htop : cleanParentList top.clades = true := hmem top (by simp)
          have hp : cleanParentList p.clades = true := hmem p (by simp)
          cases rest2 with
          | nil =>
            simp only [lastOf]
            rw [cleanParent_iff]
            simp only [lastOf] at hbot
            simp only [applyHeuristic_clades, applyHeuristic_hasParent]
            rw [cleanParentList_append]
            simp [hbot, hp, cleanParentList, cleanParent_mk, htop]
          | cons q qs =>
            simp only [lastOf]
            rw [cleanParent_iff]
            simp only [lastOf] at hbot
            have hq : cleanParentList (lastOf q qs).clades = true := by
              have hmemq : lastOf q qs ∈ top :: p :: q :: qs := by
                rcases lastOf_mem q qs with hh | hh
                · simp [hh]
                · simp [hh]
              exact hmem _ hmemq
            simp [applyHeuristic_clades, applyHeuristic_hasParent, hq, hbot]

/-- C9 witness: the tree parsed from `(A,B);` carries no parent
attribute anywhere. -/
theorem c9_no_parent_refs_witness :
    cleanParent (⟨none, none, none, none, abChildren, false, none⟩ : Clade) = true :=
  c9_no_parent_refs {} ("(A,B);".toList)
    { root := ⟨none, none, none, none, abChildren, false, none⟩ } rfl

theorem all_takeWhile (p : Char → Bool) (l : Str) : (l.takeWhile p).all p = true := by
  induction l with
  | nil => rfl
  | cons c cs ih =>
    rw [List.takeWhile_cons]
    split
    · rename_i hc
      simp [hc, ih]
    · rfl

theorem exists_last_mem : ∀ (l : Str), l ≠ [] → ∃ init c, l = init ++ [c] ∧ c ∈ l := by
  intro l
  induction l with
  | nil => simp
  | cons a as ih =>
    intro _
    cases as with
    | nil => exact ⟨[], a, rfl, by simp⟩
    | cons b bs =>
      obtain ⟨init, c, heq, hmem⟩ := ih (by simp)
      exact ⟨a :: init, c, by rw [List.cons_append, ← heq], by simp [hmem]⟩

theorem mantScan_shape (cs m r : Str) (h : mantScan cs = some (m, r)) : NumShape m := by
  unfold mantScan at h
  split at h
  · split at h
    · rename_i r2 _ hne
      simp only [Option.some.injEq, Prod.mk.injEq] at h
      rw [← h.1]
      exact Or.inr ⟨_, _, hne, all_takeWhile _ _, all_takeWhile _ _, rfl⟩
    · split at h
      · rename_i hne
        simp only [Option.some.injEq, Prod.mk.injEq] at h
        rw [← h.1]
        exact Or.inl ⟨hne, all_takeWhile _ _⟩
      · simp at h
  · split at h
    · rename_i hne
      simp only [Option.some.injEq, Prod.mk.injEq] at h
      rw [← h.1]
      exact Or.inl ⟨hne, all_takeWhile _ _⟩
    · simp at h

theorem expScan_shape (cs : Str) : ExpShape (expScan cs).1 := by
  unfold expScan
  split
  · rename_i c d r2
    split
    · rename_i hc
      split
      · rename_i hd
        split
        · rename_i hne
          exact Or.inr ⟨c, [d], _, hc,
            by rcases hd with hd | hd <;> simp [hd], hne, all_takeWhile _ _, by simp⟩
        · exact Or.inl rfl
      · split
        · rename_i hne
          exact Or.inr ⟨c, [], _, hc, Or.inl rfl, hne, all_takeWhile _ _, by simp⟩
        · exact Or.inl rfl
    · exact Or.inl rfl
  · exact Or.inl rfl

theorem signScan_shape (cs : Str) :
    (signScan cs).1 = [] ∨ (signScan cs).1 = ['+'] ∨ (signScan cs).1 = ['-'] := by
  unfold signScan
  split
  · rename_i c rest
    split
    · rename_i hc
      rcases hc with hc | hc <;> simp [hc]
    · simp
  · simp

theorem signScan_split (cs : Str) : cs = (signScan cs).1 ++ (signScan cs).2 := by
  unfold signScan
  split
  · split <;> simp
  · simp

theorem numScan_shape (cs p r : Str) (h : numScan cs = some (p, r)) :
    ∃ sg m x, (sg = [] ∨ sg = ['+'] ∨ sg = ['-']) ∧ NumShape m ∧ ExpShape x ∧
      p = sg ++ m ++ x := by
  unfold numScan at h
  split at h
  · rename_i m r1 hmant
    simp only [Option.some.injEq, Prod.mk.injEq] at h
    exact ⟨(signScan cs).1, m, (expScan r1).1, signScan_shape cs,
      mantScan_shape _ _ _ hmant, expScan_shape r1, by rw [← h.1]⟩
  · simp at h

theorem edgeScan_shape (cs p r : Str) (h : edgeScan cs = some (p, r)) : PayloadShape p := by
  unfold edgeScan at h
  split at h
  · rename_i rest
    simp only [Option.map_eq_some'] at h
    obtain ⟨q, hq, he⟩ := h
    rw [Prod.mk.injEq] at he
    obtain ⟨sg, m, x, hsg, hm, hx, heq⟩ := numScan_shape rest q.1 q.2 hq
    exact ⟨[' '], sg, m, x, Or.inr rfl, hsg, hm, hx, by rw [← he.1, heq]; simp⟩
  · obtain ⟨sg, m, x, hsg, hm, hx, heq⟩ := numScan_shape cs p r h
    exact ⟨[], sg, m, x, Or.inl rfl, hsg, hm, hx, by rw [heq]; simp⟩

theorem isDig_val (c : Char) (h : isDig c = true) : 48 ≤ c.toNat ∧ c.toNat ≤ 57 := by
  simpa [isDig] using h

theorem isDig_not_space (c : Char) (h : isDig c = true) : isPySpace c = false := by
  by_contra hsp
  simp only [Bool.not_eq_false] at hsp
  simp only [isPySpace, Bool.or_eq_true, decide_eq_true_eq] at hsp
  have hv := isDig_val c h
  rcases hsp with ((((h1 | h1) | h1) | h1) | h1) | h1 <;> rw [h1] at hv <;>
    revert hv <;> decide

theorem isDig_ne_signs (c : Char) (h : isDig c = true) :
    c ≠ '+' ∧ c ≠ '-' ∧ c ≠ '_' ∧ c ≠ '.' := by
  refine ⟨?_, ?_, ?_, ?_⟩ <;> intro hq <;> rw [hq] at h <;> exact absurd h (by decide)

theorem toLower_dig (c : Char) (h : isDig c = true) :
    Char.toLower c ≠ 'i' ∧ Char.toLower c ≠ 'n' := by
  have hv := isDig_val c h
  have hlow : Char.toLower c = c := by
    simp only [Char.toLower]
    rw [if_neg (by omega)]
  rw [hlow]
  constructor <;> intro heq <;> rw [heq] at hv <;> revert hv <;> decide

theorem digitsUCont_exact : ∀ (ds rest : Str), ds.all isDig = true →
    (∀ c tl, rest = c :: tl → isDig c = false ∧ c ≠ '_') →
    digitsUCont (ds ++ rest) = (ds, rest) := by
  intro ds
  induction ds with
  | nil =>
    intro rest _ hb
    cases rest with
    | nil => rfl
    | cons c tl =>
      obtain ⟨h1, h2⟩ := hb c tl rfl
      show digitsUCont (c :: tl) = ([], c :: tl)
      rw [digitsUCont.eq_def]
      simp only [h1, Bool.false_eq_true, if_false]
      rw [if_neg h2]
  | cons d ds ih =>
    intro rest hall hb
    simp only [List.all_cons, Bool.and_eq_true] at hall
    show digitsUCont (d :: (ds ++ rest)) = (d :: ds, rest)
    rw [digitsUCont.eq_def]
    simp only [hall.1, if_true]
    rw [ih rest hall.2 hb]

theorem digitsU_exact (ds rest : Str) (hne : ds ≠ []) (hall : ds.all isDig = true)
    (hb : ∀ c tl, rest = c :: tl → isDig c = false ∧ c ≠ '_') :
    digitsU (ds ++ rest) = some (ds, rest) := by
  cases ds with
  | nil => exact absurd rfl hne
  | cons d ds0 =>
    simp only [List.all_cons, Bool.and_eq_true] at hall
    show digitsU (d :: (ds0 ++ rest)) = some (d :: ds0, rest)
    rw [digitsU.eq_def]
    simp only [hall.1, if_true]
    rw [digitsUCont_exact ds0 rest hall.2 hb]

theorem expShape_boundary (x : Str) (hx : ExpShape x) :
    ∀ c tl, x = c :: tl → isDig c = false ∧ c ≠ '_' := by
  intro c tl hcx
  rcases hx with hx | ⟨e, sg, ds, he, _, _, _, hxeq⟩
  · rw [hx] at hcx; cases hcx
  · rw [hxeq] at hcx
    injection hcx with h1 _
    rw [← h1]
    rcases he with he | he <;> rw [he] <;> exact ⟨by decide, by decide⟩

theorem pyMant_shape (m x : Str) (hm : NumShape m) (hx : ExpShape x) :
    ∃ d1 d2, pyMant (m ++ x) = some (d1, d2, x) := by
  rcases hm with ⟨hne, hall⟩ | ⟨d1, d2, hd2, hall1, hall2, hmeq⟩
  · refine ⟨m, [], ?_⟩
    rw [pyMant.eq_def]
    rw [digitsU_exact m x hne hall (expShape_boundary x hx)]
    rcases hx with hx | ⟨e, sg, ds, he, _, _, _, hxeq⟩
    · rw [hx]
    · rw [hxeq]
      rcases he with he | he <;> rw [he] <;> rfl
  · rw [hmeq]
    cases d1 with
    | nil =>
      refine ⟨[], d2, ?_⟩
      rw [pyMant.eq_def]
      have hdig : isDig '.' = false := rfl
      have hdot : digitsU (([] ++ '.' :: d2) ++ x) = none := by
        show digitsU ('.' :: (d2 ++ x)) = none
        rw [digitsU.eq_def]
        simp [hdig]
      rw [hdot]
      show (match ('.' :: (d2 ++ x) : Str) with
        | '.' :: r2 =>
          match digitsU r2 with
          | some (d2, r3) => some (([] : Str), d2, r3)
          | none => none
        | _ => none) = some ([], d2, x)
      simp only
      rw [digitsU_exact d2 x hd2 hall2 (expShape_boundary x hx)]
    | cons a d1' =>
      refine ⟨a :: d1', d2, ?_⟩
      rw [pyMant.eq_def]
      have h1 : ((a :: d1') ++ '.' :: d2) ++ x = (a :: d1') ++ ('.' :: (d2 ++ x)) := by
        simp
      rw [h1, digitsU_exact (a :: d1') ('.' :: (d2 ++ x)) (by simp) hall1
        (by intro c tl hc; injection hc with hc1 _; rw [← hc1]; exact ⟨by decide, by decide⟩)]
      simp only
      rw [digitsU_exact d2 x hd2 hall2 (expShape_boundary x hx)]

theorem pySign_other (c : Char) (r : Str) (h1 : c ≠ '+') (h2 : c ≠ '-') :
    pySign (c :: r) = (false, c :: r) := by
  unfold pySign
  split
  · rename_i heq
    injection heq with ha _
    exact absurd ha h1
  · rename_i heq
    injection heq with ha _
    exact absurd ha h2
  · rfl

theorem rstrip_digit_end (l : Str) (c : Char) (h : isDig c = true) :
    ((l ++ [c]).reverse.dropWhile isPySpace).reverse = l ++ [c] := by
  rw [List.reverse_append]
  simp only [List.reverse_cons, List.reverse_nil, List.nil_append, List.singleton_append]
  rw [List.dropWhile_cons, isDig_not_space c h]
  simp

theorem body_head_shape (m x : Str) (hm : NumShape m) :
    ∃ c rest0, m ++ x = c :: rest0 ∧ isPySpace c = false ∧ c ≠ '+' ∧ c ≠ '-' ∧
      Char.toLower c ≠ 'i' ∧ Char.toLower c ≠ 'n' := by
  rcases hm with ⟨hne, hall⟩ | ⟨d1, d2, hd2, hall1, _, hmeq⟩
  · cases m with
    | nil => exact absurd rfl hne
    | cons a m' =>
      simp only [List.all_cons, Bool.and_eq_true] at hall
      have hs := isDig_ne_signs a hall.1
      have hl := toLower_dig a hall.1
      exact ⟨a, m' ++ x, by simp, isDig_not_space a hall.1, hs.1, hs.2.1, hl.1, hl.2⟩
  · rw [hmeq]
    cases d1 with
    | nil =>
      refine ⟨'.', d2 ++ x, by simp, by decide, by decide, by decide, by decide, by decide⟩
    | cons a d1' =>
      simp only [List.all_cons, Bool.and_eq_true] at hall1
      have hs := isDig_ne_signs a hall1.1
      have hl := toLower_dig a hall1.1
      exact ⟨a, (d1' ++ '.' :: d2) ++ x, by simp, isDig_not_space a hall1.1,
        hs.1, hs.2.1, hl.1, hl.2⟩

theorem body_end_digit (m x : Str) (hm : NumShape m) (hx : ExpShape x) :
    ∃ l c, isDig c = true ∧ m ++ x = l ++ [c] := by
  rcases hx with hx | ⟨e, sg, ds, _, _, hdsne, hdsall, hxeq⟩
  · rw [hx, List.append_nil]
    rcases hm with ⟨hne, hall⟩ | ⟨d1, d2, hd2, _, hall2, hmeq⟩
    · obtain ⟨init, c, heq, hmem⟩ := exists_last_mem m hne
      exact ⟨init, c, by rw [List.all_eq_true] at hall; exact hall c hmem, heq⟩
    · obtain ⟨init, c, heq, hmem⟩ := exists_last_mem d2 hd2
      refine ⟨d1 ++ '.' :: init, c, by rw [List.all_eq_true] at hall2; exact hall2 c hmem, ?_⟩
      rw [hmeq, heq]
      simp
  · obtain ⟨init, c, heq, hmem⟩ := exists_last_mem ds hdsne
    refine ⟨m ++ e :: sg ++ init, c,
      by rw [List.all_eq_true] at hdsall; exact hdsall c hmem, ?_⟩
    rw [hxeq, heq]
    simp

theorem pyFloat_shape (p : Str) (hp : PayloadShape p) : (pyFloat p).isSome := by
  obtain ⟨sp, sg, m, x, hsp, hsg, hm, hx, rfl⟩ := hp
  obtain ⟨hc, rest0, hbody, hcns, hcp, hcm, hci, hcn⟩ := body_head_shape m x hm
  rw [show (sp ++ sg ++ m ++ x : Str) = sp ++ (sg ++ (m ++ x)) from by simp]
  have hBdrop : (sg ++ (m ++ x)).dropWhile isPySpace = sg ++ (m ++ x) := by
    rcases hsg with hsg | hsg | hsg <;> subst hsg
    · simp only [List.nil_append]
      rw [hbody, List.dropWhile_cons, hcns]
      simp
    · simp only [List.singleton_append]
      rw [List.dropWhile_cons, show isPySpace '+' = false from rfl]
      simp
    · simp only [List.singleton_append]
      rw [List.dropWhile_cons, show isPySpace '-' = false from rfl]
      simp
  have hlstrip : (sp ++ (sg ++ (m ++ x))).dropWhile isPySpace = sg ++ (m ++ x) := by
    rcases hsp with hsp | hsp <;> subst hsp
    · simpa using hBdrop
    · simp only [List.singleton_append]
      rw [List.dropWhile_cons, show isPySpace ' ' = true from rfl]
      simp only [if_true]
      exact hBdrop
  have hstrip : ((sp ++ (sg ++ (m ++ x))).dropWhile isPySpace
      |>.reverse.dropWhile isPySpace |>.reverse) = sg ++ (m ++ x) := by
    rw [hlstrip]
    obtain ⟨l, ce, hce, heq⟩ := body_end_digit m x hm hx
    have hsplit : sg ++ (m ++ x) = (sg ++ l) ++ [ce] := by rw [heq]; simp
    rw [hsplit, rstrip_digit_end _ _ hce]
  unfold pyFloat
  rw [hstrip]
  have hps : ∃ ng, pySign (sg ++ (m ++ x)) = (ng, m ++ x) := by
    rcases hsg with hsg | hsg | hsg <;> subst hsg
    · rw [List.nil_append, hbody, pySign_other hc rest0 hcp hcm, ← hbody]
      exact ⟨false, rfl⟩
    · exact ⟨false, rfl⟩
    · exact ⟨true, rfl⟩
  obtain ⟨ng, hps⟩ := hps
  rw [hps]
  simp only
  have hmap : (m ++ x).map Char.toLower = Char.toLower hc :: rest0.map Char.toLower := by
    rw [hbody]
    simp
  rw [if_neg (by
    rw [hmap]
    push_neg
    constructor <;> intro hq <;> exact absurd (List.head_eq_of_cons_eq hq) hci)]
  rw [if_neg (by
    rw [hmap]
    intro hq
    exact absurd (List.head_eq_of_cons_eq hq) hcn)]
  obtain ⟨d1, d2, hmant⟩ := pyMant_shape m x hm hx
  rw [hmant]
  simp only
  rcases hx with hxe | ⟨e, sg2, ds, he, hsg2, hdsne, hdsall, hxeq⟩
  · rw [hxe]
    simp
  · rw [hxeq]
    split
    · simp
    · rename_i c r4 heq
      injection heq with hc1 hr4
      subst hc1
      subst hr4
      simp only [List.append_eq]
      rw [if_pos he]
      have hps2 : ∃ ng2, pySign (sg2 ++ ds) = (ng2, ds) := by
        rcases hsg2 with hsg2 | hsg2 | hsg2 <;> subst hsg2
        · cases ds with
          | nil => exact absurd rfl hdsne
          | cons a ds0 =>
            simp only [List.all_cons, Bool.and_eq_true] at hdsall
            have hs := isDig_ne_signs a hdsall.1
            rw [List.nil_append, pySign_other a ds0 hs.1 hs.2.1]
            exact ⟨false, rfl⟩
        · exact ⟨false, rfl⟩
        · exact ⟨true, rfl⟩
      obtain ⟨ng2, hps2⟩ := hps2
      have hdu : digitsU (ds ++ []) = some (ds, []) :=
        digitsU_exact ds [] hdsne hdsall (by intro c2 tl hcc; cases hcc)
      rw [List.append_nil] at hdu
      simp only [hps2, hdu]
      split <;> simp_all

theorem tokStep_edge (cs : Str) (p : Str) (r : Str)
    (h : tokStep cs = some (some (.edge p), r)) :
    ∃ rest, cs = ':' :: rest ∧ edgeScan rest = some (p, r) := by
  unfold tokStep at h
  split at h
  · simp at h
  · rename_i c rest
    split at h
    · simp at h
    · split at h
      · simp at h
      · split at h
        · simp at h
        · split at h
          · rename_i hcol
            split at h
            · rename_i payload r0 hscan
              simp only [Option.some.injEq, Prod.mk.injEq, Option.some.injEq,
                Tok.edge.injEq] at h
              exact ⟨rest, by rw [hcol], by rw [h.1, h.2] at hscan; exact hscan⟩
            · simp at h
          · split at h
            · simp at h
            · split at h
              · split at h
                · simp at h
                · simp at h
              · split at h
                · split at h
                  · simp at h
                  · simp at h
                · split at h
                  · simp at h
                  · split at h
                    · simp at h
                    · simp at h

theorem tokenizeAux_edge_shape : ∀ (fuel : Nat) (cs : Str) (p : Str),
    Tok.edge p ∈ tokenizeAux fuel cs → (pyFloat p).isSome := by
  intro fuel
  induction fuel with
  | zero => intro cs p h; simp [tokenizeAux] at h
  | succ f ih =>
    intro cs p h
    rw [tokenizeAux] at h
    split at h
    · simp at h
    · rename_i t r hstep
      simp only [List.mem_cons] at h
      rcases h with h | h
      · rw [← h] at hstep
        obtain ⟨rest, _, hscan⟩ := tokStep_edge cs p r hstep
        exact pyFloat_shape p (edgeScan_shape rest p r hscan)
      · exact ih r p h
    · rename_i r hstep
      exact ih r p h

/-- Every edge-length token the tokenizer emits has a payload that
`float()` accepts. -/
theorem tokenize_edge_ok (s : Str) (p : Str) (h : Tok.edge p ∈ tokenize s) :
    (pyFloat p).isSome := tokenizeAux_edge_shape s.length s p h

theorem runToks_no_valueError (fl : PFlags) : ∀ (toks : List Tok) (st : PState),
    (∀ p, Tok.edge p ∈ toks → (pyFloat p).isSome) →
    runToks fl toks st ≠ .error .valueError := by
  intro toks
  induction toks with
  | nil => intro st _ h; simp [runToks] at h
  | cons t rest ih =>
    intro st hp h
    have hrest : ∀ p, Tok.edge p ∈ rest → (pyFloat p).isSome := by
      intro p hmem
      exact hp p (by simp [hmem])
    cases t with
    | quoted s => exact ih _ hrest h
    | comment s =>
      simp only [runToks] at h
      split at h
      · exact ih _ hrest h
      · exact ih _ hrest h
    | popen => exact ih _ hrest h
    | comma =>
      simp only [runToks] at h
      split at h
      · exact ih _ hrest h
      · exact ih _ hrest h
    | pclose =>
      simp only [runToks] at h
      split at h
      · simp at h
      · exact ih _ hrest h
    | semi => simp [runToks] at h
    | edge payload =>
      have hsome : (pyFloat payload).isSome := hp payload (by simp)
      simp only [runToks] at h
      split at h
      · rename_i hnone
        rw [hnone] at hsome
        simp at hsome
      · split at h
        · exact ih _ hrest h
        · exact ih _ hrest h
    | newline => exact ih _ hrest h
    | unquoted s => exact ih _ hrest h

/-- C10: for every input text, every edge-length token the tokenizer
produces has a payload accepted by the `float()` conversion, and
consequently `_parse_tree` can never raise the `ValueError` of a
malformed numeric literal — that failure is unreachable from the
tokenizer. -/
theorem c10_edge_payloads_always_parse (text : Str) :
    (∀ p, Tok.edge p ∈ tokenize text → (pyFloat p).isSome) ∧
    (∀ fl, parseTree fl text ≠ .error .valueError) := by
  refine ⟨tokenize_edge_ok text, ?_⟩
  intro fl h
  unfold parseTree at h
  simp only [bind, Except.bind] at h
  split at h
  · rename_i e herr
    simp only [Except.error.injEq] at h
    subst h
    exact runToks_no_valueError fl _ _ (tokenize_edge_ok (pyStrip text)) herr
  · split at h
    · simp at h
    · split at h
      · simp at h
      · simp at h

/-- C10 witness: applied to the text `:1.5;` — its edge token's payload
`1.5` parses — and to the flagless parse of that text. -/
theorem c10_edge_payloads_always_parse_witness :
    Tok.edge ("1.5".toList) ∈ tokenize (":1.5;".toList) ∧
    (pyFloat ("1.5".toList)).isSome ∧
    parseTree {} (":1.5;".toList) ≠ .error .valueError :=
  ⟨by decide,
   (c10_edge_payloads_always_parse (":1.5;".toList)).1 ("1.5".toList) (by decide),
   (c10_edge_payloads_always_parse (":1.5;".toList)).2 {}⟩

theorem beforeSemi_cons_ne (t : Tok) (rest : List Tok) (h : t ≠ Tok.semi) :
    beforeSemi (t :: rest) = t :: beforeSemi rest := by
  simp [beforeSemi, List.takeWhile_cons, h]

theorem beforeSemi_cons_semi (rest : List Tok) :
    beforeSemi (Tok.semi :: rest) = [] := by
  simp [beforeSemi, List.takeWhile_cons]

theorem countOpens_cons (t : Tok) (rest : List Tok) :
    countOpens (t :: rest) = (if t = Tok.popen then 1 else 0) + countOpens rest := by
  simp only [countOpens, List.countP_cons]
  by_cases h : t = Tok.popen
  · simp [h, Nat.add_comm]
  · simp [h]

theorem countCloses_cons (t : Tok) (rest : List Tok) :
    countCloses (t :: rest) = (if t = Tok.pclose then 1 else 0) + countCloses rest := by
  simp only [countCloses, List.countP_cons]
  by_cases h : t = Tok.pclose
  · simp [h, Nat.add_comm]
  · simp [h]

theorem runToks_counts (fl : PFlags) : ∀ (toks : List Tok) (st : PState),
    (∀ p, Tok.edge p ∈ toks → (pyFloat p).isSome) →
    runToks fl toks st = .error (.newick ("Parenthesis mismatch.".toList)) ∨
    ∃ st2 rem, runToks fl toks st = .ok (st2, rem) ∧
      st2.lp = st.lp + countOpens (beforeSemi toks) ∧
      st2.rp = st.rp + countCloses (beforeSemi toks) := by
  intro toks
  induction toks with
  | nil =>
    intro st _
    exact Or.inr ⟨st, [], rfl, by simp [beforeSemi, countOpens], by
      simp [beforeSemi, countCloses]⟩
  | cons t rest ih =>
    intro st hp
    have hrest : ∀ p, Tok.edge p ∈ rest → (pyFloat p).isSome := by
      intro p hmem
      exact hp p (by simp [hmem])
    have hcount : ∀ st0 : PState, t ≠ Tok.semi →
        (runToks fl rest st0 = .error (.newick ("Parenthesis mismatch.".toList)) ∨
          ∃ st2 rem, runToks fl rest st0 = .ok (st2, rem) ∧
            st2.lp = st0.lp + countOpens (beforeSemi rest) ∧
            st2.rp = st0.rp + countCloses (beforeSemi rest)) →
        st0.lp = st.lp + (if t = Tok.popen then 1 else 0) →
        st0.rp = st.rp + (if t = Tok.pclose then 1 else 0) →
        runToks fl (t :: rest) st = runToks fl rest st0 →
        runToks fl (t :: rest) st = .error (.newick ("Parenthesis mismatch.".toList)) ∨
        ∃ st2 rem, runToks fl (t :: rest) st = .ok (st2, rem) ∧
          st2.lp = st.lp + countOpens (beforeSemi (t :: rest)) ∧
          st2.rp = st.rp + countCloses (beforeSemi (t :: rest)) := by
      intro st0 htne hihres hlp hrp heq
      rw [beforeSemi_cons_ne t rest htne, countOpens_cons, countCloses_cons]
      rcases hihres with herr | ⟨st2, rem, hok, h1, h2⟩
      · left; rw [heq]; exact herr
      · right
        exact ⟨st2, rem, by rw [heq]; exact hok, by omega, by omega⟩
    cases t with
    | quoted s =>
      exact hcount { st with top := { st.top with name := some s } }
        (by simp) (ih _ hrest) (by simp) (by simp) rfl
    | comment s =>
      by_cases hcc : fl.commentsAreConfidence
      · exact hcount
          { st with top :=
            { st.top with comment := some s, confidence := parseConfidence s } }
          (by simp) (ih _ hrest) (by simp) (by simp) (by simp [runToks, hcc])
      · exact hcount { st with top := { st.top with comment := some s } }
          (by simp) (ih _ hrest) (by simp) (by simp) (by simp [runToks, hcc])
    | popen =>
      exact hcount
        { st with top := newClade true, above := st.top :: st.above, lp := st.lp + 1 }
        (by simp) (ih _ hrest) (by simp) (by simp) rfl
    | comma =>
      cases habove : st.above with
      | nil =>
        exact hcount
          { st with
              top := newClade true
              above := [{ (newClade false) with clades := [{ (applyHeuristic fl { st.top with hasParent := true }) with hasParent := false }] }] }
          (by simp) (ih _ hrest) (by simp) (by simp) (by simp [runToks, habove])
      | cons p rest2 =>
        exact hcount
          { st with
              top := newClade true
              above := ({ p with clades := p.clades ++ [{ (applyHeuristic fl st.top) with hasParent := false }] }) :: rest2 }
          (by simp) (ih _ hrest) (by simp) (by simp) (by simp [runToks, habove])
    | pclose =>
      cases habove : st.above with
      | nil =>
        left
        simp [runToks, processTop, habove]
      | cons p rest2 =>
        exact hcount
          { st with
              top := { p with clades := p.clades ++ [{ (applyHeuristic fl st.top) with hasParent := false }] }
              above := rest2
              rp := st.rp + 1 }
          (by simp) (ih _ hrest) (by simp) (by simp)
          (by simp [runToks, processTop, habove])
    | semi =>
      right
      refine ⟨st, rest, rfl, ?_, ?_⟩ <;>
        simp [beforeSemi_cons_semi, countOpens, countCloses]
    | edge payload =>
      have hsome : (pyFloat payload).isSome := hp payload (by simp)
      obtain ⟨v, hv⟩ := Option.isSome_iff_exists.mp hsome
      by_cases hvc : fl.valuesAreConfidence
      · exact hcount { st with top := { st.top with confidence := some v } }
          (by simp) (ih _ hrest) (by simp) (by simp) (by simp [runToks, hv, hvc])
      · exact hcount { st with top := { st.top with branch_length := some v } }
          (by simp) (ih _ hrest) (by simp) (by simp) (by simp [runToks, hv, hvc])
    | newline =>
      exact hcount st (by simp) (ih _ hrest) (by simp) (by simp) rfl
    | unquoted s =>
      exact hcount { st with top := { st.top with name := some s } }
        (by simp) (ih _ hrest) (by simp) (by simp) rfl

theorem parse_counts_mismatch (fl : PFlags) (text : Str)
    (h : countOpens (beforeSemi (tokenize (pyStrip text))) ≠
      countCloses (beforeSemi (tokenize (pyStrip text)))) :
    parseTree fl text = .error (.newick ("Parenthesis mismatch.".toList)) ∨
    parseTree fl text =
      .error (.newick ("Number of open/close parentheses do not match.".toList)) := by
  unfold parseTree
  rcases runToks_counts fl (tokenize (pyStrip text))
      { top := newClade false, above := [], lp := 0, rp := 0 }
      (tokenize_edge_ok (pyStrip text)) with herr | ⟨st2, rem, hok, h1, h2⟩
  · left
    rw [herr]
    rfl
  · right
    rw [hok]
    simp only [bind, Except.bind]
    rw [if_pos (by simp at h1 h2; omega)]


/-- C7 (counterexample): the segment `();)` has one `(` token and two
`)` tokens — unequal counts — yet parsing raises the "Text after
semicolon" `NewickError`, not a parenthesis-mismatch error: the `)`
after the semicolon is counted by the claim but never reaches the
parser's counters. -/
theorem c7_trailing_text_counterexample :
    countOpens (tokenize (pyStrip ("();)".toList))) = 1 ∧
    countCloses (tokenize (pyStrip ("();)".toList))) = 2 ∧
    parseTree {} ("();)".toList) =
      .error (.newick ("Text after semicolon in Newick tree: )".toList)) ∧
    ("Text after semicolon in Newick tree: )".toList ≠ "Parenthesis mismatch.".toList) ∧
    ("Text after semicolon in Newick tree: )".toList ≠
      "Number of open/close parentheses do not match.".toList) :=
  ⟨rfl, rfl, rfl, by decide, by decide⟩

theorem infoOf_default (c : Clade) (t : Bool) :
    infoOf {} c t = some (infoDefaultStr c t) := by
  show makeInfoDefault 2 5 c t = some (infoDefaultStr c t)
  unfold makeInfoDefault infoDefaultStr
  split <;> rfl

theorem renderClade_eq (c : Clade) :
    renderClade c =
      if c.clades.isEmpty then
        writerLabel (labelStr c) ++ infoDefaultStr c true
      else
        '(' :: renderList c.clades ++
          ')' :: writerLabel (labelStr c) ++ infoDefaultStr c false := by
  cases c
  rfl

theorem cladeSize_eq (c : Clade) : cladeSize c = 1 + cladeListSize c.clades := by
  cases c
  rfl

theorem itemWeight_pos (it : WItem) : 1 ≤ itemWeight it := by
  cases it with
  | node c => simp only [itemWeight]; rw [cladeSize_eq]; omega
  | marker c => exact le_refl 1
  | commaM => exact le_refl 1

theorem wNeed_cons (it : WItem) (l : List WItem) :
    wNeed (it :: l) = itemWeight it + wNeed l := by
  simp [wNeed]

theorem wNeed_append (a b : List WItem) : wNeed (a ++ b) = wNeed a + wNeed b := by
  simp [wNeed]

theorem wNeed_intersperse : ∀ cl : List Clade, cl ≠ [] →
    wNeed ((cl.map WItem.node).intersperse WItem.commaM) + 1 = cladeListSize cl
  | [], h => absurd rfl h
  | [c], _ => by
    simp [List.intersperse, wNeed, itemWeight, cladeListSize]
    omega
  | c :: c' :: l, _ => by
    have ih := wNeed_intersperse (c' :: l) (by simp)
    simp only [List.map_cons, List.intersperse_cons_cons, wNeed_cons, itemWeight,
      cladeListSize] at ih ⊢
    omega

theorem flat_intersperse : ∀ cl : List Clade,
    (((cl.map WItem.node).intersperse WItem.commaM).map itemStr).flatten =
      renderList cl
  | [] => rfl
  | [c] => by simp [List.intersperse, itemStr, renderList]
  | c :: c' :: l => by
    have ih := flat_intersperse (c' :: l)
    simp only [List.map_cons, List.intersperse_cons_cons, List.flatten_cons] at ih ⊢
    rw [ih]
    simp [itemStr, renderList]

theorem wLoop_renders : ∀ (fuel : Nat) (items : List WItem) (acc : Str),
    wNeed items ≤ fuel →
    wLoop (infoOf {}) fuel items acc =
      some (acc ++ (items.map itemStr).flatten)
  | _, [], acc, _ => by simp [wLoop]
  | 0, it :: l, acc, h => by
    exfalso
    rw [wNeed_cons] at h
    have := itemWeight_pos it
    omega
  | fuel + 1, it :: l, acc, h => by
    rw [wNeed_cons] at h
    cases it with
    | commaM =>
      show wLoop (infoOf {}) fuel l (acc ++ [',']) = _
      rw [wLoop_renders fuel l (acc ++ [','])
        (by simp only [itemWeight] at h; omega)]
      simp [itemStr]
    | marker c =>
      show (match infoOf {} c false with
        | some s =>
          wLoop (infoOf {}) fuel l (acc ++ ')' :: writerLabel (labelStr c) ++ s)
        | none => none) = _
      rw [infoOf_default]
      refine (wLoop_renders fuel l
        (acc ++ ')' :: writerLabel (labelStr c) ++ infoDefaultStr c false)
        (by simp only [itemWeight] at h; omega)).trans ?_
      simp [itemStr]
    | node c =>
      by_cases hleaf : c.clades.isEmpty
      · show (if c.clades.isEmpty then
            match infoOf {} c true with
            | some s => wLoop (infoOf {}) fuel l (acc ++ writerLabel (labelStr c) ++ s)
            | none => none
          else wLoop (infoOf {}) fuel (expandItems c ++ l) (acc ++ ['('])) = _
        rw [if_pos hleaf, infoOf_default]
        refine (wLoop_renders fuel l
          (acc ++ writerLabel (labelStr c) ++ infoDefaultStr c true)
          (by simp only [itemWeight] at h; rw [cladeSize_eq] at h; omega)).trans ?_
        simp only [List.map_cons, List.flatten_cons, itemStr, renderClade_eq,
          if_pos hleaf]
        simp
      · show (if c.clades.isEmpty then
            match infoOf {} c true with
            | some s => wLoop (infoOf {}) fuel l (acc ++ writerLabel (labelStr c) ++ s)
            | none => none
          else wLoop (infoOf {}) fuel (expandItems c ++ l) (acc ++ ['('])) = _
        rw [if_neg hleaf]
        have hcl : c.clades ≠ [] := by
          intro hx; rw [hx] at hleaf; exact hleaf rfl
        have hsz := wNeed_intersperse c.clades hcl
        have hfuel : wNeed (expandItems c ++ l) ≤ fuel := by
          rw [wNeed_append]
          simp only [expandItems, wNeed_append, wNeed_cons] at *
          simp only [itemWeight] at *
          rw [cladeSize_eq] at h
          simp [wNeed] at *
          omega
        rw [wLoop_renders fuel (expandItems c ++ l) (acc ++ ['(']) hfuel]
        simp only [expandItems, List.map_append, List.flatten_append,
          List.map_cons, List.flatten_cons, flat_intersperse]
        simp only [itemStr, List.map_cons, List.flatten_cons, renderClade_eq,
          if_neg hleaf]
        simp

theorem newickize_renders (c : Clade) :
    newickize (infoOf {}) c = some (renderClade c) := by
  unfold newickize
  rw [wLoop_renders (cladeSize c) [WItem.node c] []
    (by simp [wNeed, itemWeight])]
  simp [itemStr]

theorem isDig_isLabelChar (c : Char) (h : isDig c = true) : isLabelChar c = true := by
  have hv := isDig_val c h
  simp only [isLabelChar, Bool.and_eq_true, decide_eq_true_eq, Bool.not_eq_true']
  refine ⟨⟨⟨⟨⟨⟨⟨⟨isDig_not_space c h, ?_⟩, ?_⟩, ?_⟩, ?_⟩, ?_⟩, ?_⟩, ?_⟩, ?_⟩ <;>
    intro hq <;> rw [hq] at h <;> exact absurd h (by decide)

theorem takeWhile_append_all (p : Char → Bool) (ds : Str) (r : Char) (rest : Str)
    (h1 : ds.all p = true) (h2 : p r = false) :
    (ds ++ r :: rest).takeWhile p = ds ∧ (ds ++ r :: rest).dropWhile p = r :: rest := by
  induction ds with
  | nil => simp [List.takeWhile_cons, List.dropWhile_cons, h2]
  | cons c cs ih =>
    simp only [List.all_cons, Bool.and_eq_true] at h1
    simp only [List.cons_append, List.takeWhile_cons, List.dropWhile_cons, h1.1,
      if_true]
    exact ⟨by rw [(ih h1.2).1], (ih h1.2).2⟩

theorem tokenize_cons_tok {c : Char} {r0 : Str} {t : Tok} {r : Str}
    (h : tokStep (c :: r0) = some (some t, r)) :
    tokenize (c :: r0) = t :: tokenize r := by
  rw [tokenize_step, h]

theorem tokStep_comma (r : Str) : tokStep (',' :: r) = some (some Tok.comma, r) := rfl

theorem tokStep_popen (r : Str) : tokStep ('(' :: r) = some (some Tok.popen, r) := rfl

theorem tokStep_pclose (r : Str) : tokStep (')' :: r) = some (some Tok.pclose, r) := rfl

theorem tokStep_semi (r : Str) : tokStep (';' :: r) = some (some Tok.semi, r) := rfl

theorem tokStep_label (s : Str) (hne : s ≠ []) (hall : s.all isLabelChar = true)
    (c0 : Char) (hc0 : isLabelChar c0 = false) (r0 : Str) :
    tokStep (s ++ c0 :: r0) = some (some (Tok.unquoted s), c0 :: r0) := by
  match s with
  | [] => exact absurd rfl hne
  | ch :: s' =>
    simp only [List.all_cons, Bool.and_eq_true] at hall
    obtain ⟨hne1, hne2⟩ := isLabelChar_ne_parens ch hall.1
    obtain ⟨ht, hd⟩ := takeWhile_append_all isLabelChar s' c0 r0 hall.2 hc0
    rw [List.cons_append]
    simp only [tokStep]
    rw [if_neg hne1, if_neg hne2, if_pos hall.1, ht, hd]

theorem qScan_clean_gen (s : Str) (r : Str)
    (h : ∀ ch ∈ s, ch ≠ bslash ∧ ch ≠ squote) :
    qScan (s ++ squote :: r) = some (s, r) := by
  induction s with
  | nil =>
    match r with
    | [] => simp [qScan]
    | x :: xs =>
      show qScan (squote :: x :: xs) = some ([], x :: xs)
      simp [qScan]
  | cons c cs ih =>
    have hc := h c (List.mem_cons_self c cs)
    have hrest : qScan (cs ++ squote :: r) = some (cs, r) :=
      ih fun ch hm => h ch (List.mem_cons_of_mem c hm)
    match hcs : cs ++ squote :: r with
    | [] => exact absurd hcs (by simp)
    | d :: rest2 =>
      rw [List.cons_append, hcs]
      simp only [qScan]
      rw [if_neg hc.2, if_neg hc.1, ← hcs, hrest]
      rfl

theorem tokStep_quoted (s : Str) (r : Str)
    (h : ∀ ch ∈ s, ch ≠ bslash ∧ ch ≠ squote) :
    tokStep (squote :: (s ++ squote :: r)) = some (some (Tok.quoted s), r) := by
  simp only [tokStep]
  rw [if_neg (by decide), if_neg (by decide), if_neg (by decide),
    if_neg (by decide), if_neg (by decide), if_neg (by decide),
    if_pos trivial, qScan_clean_gen s r h]

theorem tokStep_colon {r : Str} {p r' : Str} (h : edgeScan r = some (p, r')) :
    tokStep (':' :: r) = some (some (Tok.edge p), r') := by
  have hstep : tokStep (':' :: r) =
      match edgeScan r with
      | some (payload, r1) => some (some (Tok.edge payload), r1)
      | none => some (none, r) := rfl
  rw [hstep, h]

theorem natDigits_all' (n : Nat) : (natDigits n).all isDig = true := by
  rw [List.all_eq_true]
  intro c hc
  exact natDigits_all_dig n c hc

theorem padZeros_all_dig (w : Nat) (ds : Str) (h : ds.all isDig = true) :
    (padZeros w ds).all isDig = true := by
  simp only [padZeros, List.all_append, Bool.and_eq_true]
  refine ⟨?_, h⟩
  rw [List.all_eq_true]
  intro c hc
  rw [List.eq_of_mem_replicate hc]
  decide

theorem padZeros_ne_nil (w : Nat) (ds : Str) (h : ds ≠ []) : padZeros w ds ≠ [] := by
  simp [padZeros, h]

theorem mantScan_fmt (prec M : Nat) (hp : prec ≠ 0) (r0 : Char) (rest : Str)
    (hr0 : isDig r0 = false) (hdot : r0 ≠ '.') :
    mantScan (fmtFixedNat prec M ++ r0 :: rest) =
      some (fmtFixedNat prec M, r0 :: rest) := by
  have hfrac : (padZeros prec (natDigits (M % 10 ^ prec))).all isDig = true :=
    padZeros_all_dig _ _ (natDigits_all' _)
  obtain ⟨ht2, hd2⟩ := takeWhile_append_all isDig
    (padZeros prec (natDigits (M % 10 ^ prec))) r0 rest hfrac hr0
  obtain ⟨ht1, hd1⟩ := takeWhile_append_all isDig (natDigits (M / 10 ^ prec)) '.'
    (padZeros prec (natDigits (M % 10 ^ prec)) ++ r0 :: rest)
    (natDigits_all' _) (by decide)
  simp only [fmtFixedNat, if_neg hp, List.append_assoc, List.cons_append]
  unfold mantScan
  rw [hd1, ht1]
  have hfne : padZeros prec (natDigits (M % 10 ^ prec)) ≠ [] :=
    padZeros_ne_nil _ _ (natDigits_ne_nil _)
  simp only [ht2, hd2]
  rw [if_pos hfne]

theorem expScan_stop (r0 : Char) (rest : Str) (h : r0 ≠ 'e' ∧ r0 ≠ 'E') :
    expScan (r0 :: rest) = ([], r0 :: rest) := by
  match rest with
  | [] => rfl
  | x :: xs =>
    show expScan (r0 :: x :: xs) = _
    simp only [expScan]
    rw [if_neg (by simp [h.1, h.2])]

theorem numScan_fmt (prec : Nat) (hp : prec ≠ 0) (d : Dec) (r0 : Char) (rest : Str)
    (hr0 : r0 = ',' ∨ r0 = ')' ∨ r0 = ';') :
    numScan (fmtFixed prec d ++ r0 :: rest) = some (fmtFixed prec d, r0 :: rest) := by
  have hdig : isDig r0 = false := by rcases hr0 with h | h | h <;> rw [h] <;> decide
  have hdot : r0 ≠ '.' := by rcases hr0 with h | h | h <;> rw [h] <;> decide
  have hexp : r0 ≠ 'e' ∧ r0 ≠ 'E' := by
    rcases hr0 with h | h | h <;> rw [h] <;> exact ⟨by decide, by decide⟩
  have hmant := mantScan_fmt prec (roundScaled d prec) hp r0 rest hdig hdot
  by_cases hneg : d.num < 0
  · simp only [fmtFixed, if_pos hneg, List.cons_append, List.nil_append]
    unfold numScan
    have hsign : signScan ('-' :: (fmtFixedNat prec (roundScaled d prec) ++ r0 :: rest)) =
        (['-'], fmtFixedNat prec (roundScaled d prec) ++ r0 :: rest) := by
      simp [signScan]
    rw [hsign]
    simp only [hmant]
    rw [expScan_stop r0 rest hexp]
    simp
  · simp only [fmtFixed, if_neg hneg, List.nil_append]
    obtain ⟨hA, tA, hds⟩ : ∃ h t, natDigits (roundScaled d prec / 10 ^ prec) = h :: t := by
      match hx : natDigits (roundScaled d prec / 10 ^ prec) with
      | [] => exact absurd hx (natDigits_ne_nil _)
      | h :: t => exact ⟨h, t, rfl⟩
    have hAdig : isDig hA = true := by
      have := natDigits_all' (roundScaled d prec / 10 ^ prec)
      rw [hds] at this
      simp only [List.all_cons, Bool.and_eq_true] at this
      exact this.1
    have hAsign := isDig_ne_signs hA hAdig
    unfold numScan
    have hshape : fmtFixedNat prec (roundScaled d prec) ++ r0 :: rest =
        hA :: (tA ++ '.' :: padZeros prec (natDigits (roundScaled d prec % 10 ^ prec)) ++ r0 :: rest) := by
      simp only [fmtFixedNat, if_neg hp, hds]
      simp [List.append_assoc]
    rw [hshape]
    have hsign : signScan (hA :: (tA ++ '.' :: padZeros prec (natDigits (roundScaled d prec % 10 ^ prec)) ++ r0 :: rest)) =
        ([], hA :: (tA ++ '.' :: padZeros prec (natDigits (roundScaled d prec % 10 ^ prec)) ++ r0 :: rest)) := by
      simp only [signScan]
      rw [if_neg (fun hor => hor.elim hAsign.1 hAsign.2.1)]
    rw [hsign, ← hshape]
    simp only [hmant]
    rw [expScan_stop r0 rest hexp]
    simp

theorem edgeScan_fmt (prec : Nat) (hp : prec ≠ 0) (d : Dec) (r0 : Char) (rest : Str)
    (hr0 : r0 = ',' ∨ r0 = ')' ∨ r0 = ';') :
    edgeScan (fmtFixed prec d ++ r0 :: rest) = some (fmtFixed prec d, r0 :: rest) := by
  have hnum := numScan_fmt prec hp d r0 rest hr0
  have hhead : ∃ c0 tail, fmtFixed prec d ++ r0 :: rest = c0 :: tail ∧ c0 ≠ ' ' := by
    by_cases hneg : d.num < 0
    · refine ⟨'-', fmtFixedNat prec (roundScaled d prec) ++ r0 :: rest, ?_, by decide⟩
      simp [fmtFixed, if_pos hneg]
    · obtain ⟨hA, tA, hds⟩ : ∃ h t, natDigits (roundScaled d prec / 10 ^ prec) = h :: t := by
        match hx : natDigits (roundScaled d prec / 10 ^ prec) with
        | [] => exact absurd hx (natDigits_ne_nil _)
        | h :: t => exact ⟨h, t, rfl⟩
      have hAdig : isDig hA = true := by
        have := natDigits_all' (roundScaled d prec / 10 ^ prec)
        rw [hds] at this
        simp only [List.all_cons, Bool.and_eq_true] at this
        exact this.1
      refine ⟨hA, tA ++ '.' :: padZeros prec (natDigits (roundScaled d prec % 10 ^ prec)) ++ r0 :: rest, ?_, ?_⟩
      · simp only [fmtFixed, if_neg hneg, List.nil_append, fmtFixedNat, if_neg hp, hds]
        simp [List.append_assoc]
      · intro hsp
        rw [hsp] at hAdig
        exact absurd hAdig (by decide)
  obtain ⟨c0, tail, heq, hc0⟩ := hhead
  rw [heq] at hnum ⊢
  unfold edgeScan
  split
  · rename_i rest1 heq2
    injection heq2 with h1 h2
    exact absurd h1 hc0
  · exact hnum

theorem wOK_parts (nm : Option Str) (bl cf : Option PyNum) (cm : Option Str)
    (cl : List Clade) (hp : Bool) (co : Option Str)
    (h : wOK (.mk nm bl cf cm cl hp co) = true) :
    nameOK nm = true ∧
    (∃ b, bl = some (.float b) ∧ pyFloat (fmtFixed 5 b) = some (.float b)) ∧
    (cl = [] → cf = none) ∧
    (cl ≠ [] →
      (cf = none ∧ ∀ s, nm = some s → parseConfidence s = none) ∨
      (∃ v, cf = some v ∧ nm = none ∧
        parseConfidence (fmtNum 2 v) = some (.float (numToDec v)))) ∧
    co = none ∧ wListOK cl = true := by
  simp only [wOK, Bool.and_eq_true] at h
  obtain ⟨⟨⟨⟨hA, hB⟩, hC⟩, hD⟩, hE⟩ := h
  refine ⟨hA, ?_, ?_, ?_, ?_, hE⟩
  · match bl with
    | none => exact absurd hB (by simp)
    | some (.int n) => exact absurd hB (by simp)
    | some (.inf b) => exact absurd hB (by simp)
    | some .nan => exact absurd hB (by simp)
    | some (.float b) => exact ⟨b, rfl, of_decide_eq_true hB⟩
  · intro hnil
    rw [if_pos (by simp [hnil])] at hC
    exact Option.isNone_iff_eq_none.mp hC
  · intro hne
    rw [if_neg (by simp [hne])] at hC
    match cf with
    | none =>
      left
      refine ⟨rfl, fun s hs => ?_⟩
      rw [hs] at hC
      exact Option.isNone_iff_eq_none.mp hC
    | some v =>
      right
      rw [Bool.and_eq_true] at hC
      exact ⟨v, rfl, Option.isNone_iff_eq_none.mp hC.1, of_decide_eq_true hC.2⟩
  · exact Option.isNone_iff_eq_none.mp hD

theorem nameOK_some (s : Str) (h : nameOK (some s) = true) :
    s ≠ [] ∧ ∀ ch ∈ s, ch ≠ bslash ∧ ch ≠ squote ∧ ch ≠ '\n' := by
  simp only [nameOK, Bool.and_eq_true, Bool.not_eq_true'] at h
  refine ⟨by simpa [List.isEmpty_iff] using h.1, fun ch hm => ?_⟩
  have := h.2
  rw [List.all_eq_true] at this
  have hch := this ch hm
  simp only [Bool.and_eq_true, decide_eq_true_eq] at hch
  exact ⟨hch.1.1, hch.1.2, hch.2⟩

theorem roundScaled_zero (d : Dec) (prec : Nat) (h : d.num = 0) :
    roundScaled d prec = 0 := by
  have habs : d.num.natAbs = 0 := by simp [h]
  unfold roundScaled
  rw [habs]
  have hpos : 0 < 10 ^ (d.exp - prec) := Nat.pos_pow_of_pos _ (by omega)
  split
  · simp
  · simp only [Nat.zero_mod, Nat.mul_zero, Nat.zero_div]
    rw [if_neg (by omega), if_pos hpos]

theorem blOrZero_wOK (b : Dec) (h : pyFloat (fmtFixed 5 b) = some (.float b)) :
    blOrZero (some (.float b)) = .float b := by
  by_cases hb : b.num = 0
  · have hfmt : fmtFixed 5 b = "0.00000".toList := by
      simp [fmtFixed, roundScaled_zero b 5 hb, hb, fmtFixedNat]
      rfl
    rw [hfmt] at h
    have : (some (PyNum.float ⟨0, 0⟩) : Option PyNum) = some (.float b) := h
    have hb0 : b = ⟨0, 0⟩ := by
      injection this with this2
      injection this2 with this3
      exact this3.symm
    show (if PyNum.truthy (.float b) then PyNum.float b else .float ⟨0, 0⟩) = .float b
    rw [hb0]
    rfl
  · show (if PyNum.truthy (.float b) then PyNum.float b else .float ⟨0, 0⟩) = .float b
    rw [if_pos (by simpa [PyNum.truthy] using hb)]

theorem fmtFixedNat_ne_nil (prec m : Nat) : fmtFixedNat prec m ≠ [] := by
  unfold fmtFixedNat
  split
  · exact natDigits_ne_nil m
  · simp [natDigits_ne_nil]

theorem fmtFixed_ne_nil (prec : Nat) (d : Dec) : fmtFixed prec d ≠ [] := by
  unfold fmtFixed
  split
  · simp
  · simp [fmtFixedNat_ne_nil]

theorem fmtFixedNat_all_label (prec m : Nat) :
    (fmtFixedNat prec m).all isLabelChar = true := by
  have hdig : ∀ n : Nat, (natDigits n).all isLabelChar = true := by
    intro n
    rw [List.all_eq_true]
    intro c hc
    exact isDig_isLabelChar c (natDigits_all_dig n c hc)
  unfold fmtFixedNat
  split
  · exact hdig m
  · simp only [List.all_append, List.all_cons, Bool.and_eq_true]
    refine ⟨hdig _, by decide, ?_⟩
    rw [List.all_eq_true]
    intro c hc
    have hall := padZeros_all_dig prec (natDigits (m % 10 ^ prec)) (natDigits_all' _)
    rw [List.all_eq_true] at hall
    exact isDig_isLabelChar c (hall c hc)

theorem fmtFixed_all_label (prec : Nat) (d : Dec) :
    (fmtFixed prec d).all isLabelChar = true := by
  unfold fmtFixed
  split
  · simp only [List.all_append, List.all_cons, Bool.and_eq_true]
    exact ⟨⟨by decide, by decide⟩, fmtFixedNat_all_label _ _⟩
  · simp only [List.nil_append]
    exact fmtFixedNat_all_label _ _

theorem conf_fmt_shape (v : PyNum)
    (h : parseConfidence (fmtNum 2 v) = some (.float (numToDec v))) :
    ∃ dv, fmtNum 2 v = fmtFixed 2 dv := by
  match v with
  | .int n => exact ⟨⟨n, 0⟩, rfl⟩
  | .float d => exact ⟨d, rfl⟩
  | .inf true => exact absurd h (by decide)
  | .inf false => exact absurd h (by decide)
  | .nan => exact absurd h (by decide)

theorem writerLabel_all (s : Str) (hne : s ≠ []) (hall : s.all isLabelChar = true) :
    writerLabel s = s := by
  unfold writerLabel
  rw [if_neg (by simp [List.isEmpty_iff, hne]), if_pos hall]

theorem tokenize_label_step (s : Str) (hne : s ≠ [])
    (hall : s.all isLabelChar = true) (c0 : Char) (hc0 : isLabelChar c0 = false)
    (r0 : Str) :
    tokenize (s ++ c0 :: r0) = Tok.unquoted s :: tokenize (c0 :: r0) := by
  match s with
  | [] => exact absurd rfl hne
  | ch :: s' =>
    rw [List.cons_append]
    refine tokenize_cons_tok ?_
    rw [← List.cons_append]
    exact tokStep_label (ch :: s') hne hall c0 hc0 r0

theorem tokenize_quoted_step (s : Str) (r0 : Str)
    (h : ∀ ch ∈ s, ch ≠ bslash ∧ ch ≠ squote) :
    tokenize (squote :: (s ++ squote :: r0)) = Tok.quoted s :: tokenize r0 :=
  tokenize_cons_tok (tokStep_quoted s r0 h)

theorem tokenize_label_edge (nm : Option Str) (h : nameOK nm = true) (d : Dec)
    (stop : Char) (r : Str) (hstop : stop = ',' ∨ stop = ')' ∨ stop = ';') :
    tokenize (writerLabel (nm.getD []) ++ ':' :: (fmtFixed 5 d ++ stop :: r)) =
      labelToks nm ++ Tok.edge (fmtFixed 5 d) :: tokenize (stop :: r) := by
  have hedge : tokenize (':' :: (fmtFixed 5 d ++ stop :: r)) =
      Tok.edge (fmtFixed 5 d) :: tokenize (stop :: r) :=
    tokenize_cons_tok (tokStep_colon (edgeScan_fmt 5 (by decide) d stop r hstop))
  match nm with
  | none =>
    show tokenize (writerLabel [] ++ ':' :: (fmtFixed 5 d ++ stop :: r)) = _
    rw [show writerLabel [] = [] from rfl, List.nil_append, hedge]
    rfl
  | some s =>
    obtain ⟨hne, hchars⟩ := nameOK_some s h
    show tokenize (writerLabel s ++ ':' :: (fmtFixed 5 d ++ stop :: r)) = _
    by_cases hall : s.all isLabelChar = true
    · rw [writerLabel_all s hne hall,
        tokenize_label_step s hne hall ':' (by decide) _, hedge]
      simp [labelToks, List.isEmpty_iff, hne, hall]
    · have hclean : ∀ ch ∈ s, ch ≠ bslash ∧ ch ≠ squote := fun ch hm =>
        ⟨(hchars ch hm).1, (hchars ch hm).2.1⟩
      have hwl : writerLabel s = squote :: escLabel s ++ [squote] := by
        unfold writerLabel
        rw [if_neg (by simp [List.isEmpty_iff, hne]), if_neg hall]
      rw [hwl, escLabel_clean s hclean]
      have hshape : (squote :: s ++ [squote]) ++ ':' :: (fmtFixed 5 d ++ stop :: r) =
          squote :: (s ++ squote :: (':' :: (fmtFixed 5 d ++ stop :: r))) := by
        simp
      rw [hshape, tokenize_quoted_step s _ hclean, hedge]
      simp [labelToks, List.isEmpty_iff, hne, hall]

theorem renderClade_mk (nm : Option Str) (bl cf : Option PyNum) (cm : Option Str)
    (cl : List Clade) (hp : Bool) (co : Option Str) :
    renderClade (.mk nm bl cf cm cl hp co) =
      if cl.isEmpty then
        writerLabel (nm.getD []) ++ infoDefaultStr (.mk nm bl cf cm cl hp co) true
      else
        '(' :: renderList cl ++
          ')' :: writerLabel (nm.getD []) ++
            infoDefaultStr (.mk nm bl cf cm cl hp co) false := rfl

theorem cladeToks_mk (nm : Option Str) (bl cf : Option PyNum) (cm : Option Str)
    (cl : List Clade) (hp : Bool) (co : Option Str) :
    cladeToks (.mk nm bl cf cm cl hp co) =
      if cl.isEmpty then
        labelToks nm ++ [Tok.edge (fmtFixed 5 (blDec bl))]
      else
        Tok.popen :: cladeListToks cl ++ Tok.pclose ::
          labelToks (preName cf nm) ++ [Tok.edge (fmtFixed 5 (blDec bl))] := rfl

theorem infoDefaultStr_noconf (nm : Option Str) (b : Dec) (cm : Option Str)
    (cl : List Clade) (hp t : Bool)
    (hfb : pyFloat (fmtFixed 5 b) = some (.float b)) :
    infoDefaultStr (.mk nm (some (.float b)) none cm cl hp none) t =
      ':' :: fmtFixed 5 b := by
  simp only [infoDefaultStr]
  rw [if_pos (by simp)]
  show ':' :: fmtNum 5 (blOrZero (some (.float b))) ++
    getComment (.mk nm (some (.float b)) none cm cl hp none) = _
  rw [blOrZero_wOK b hfb]
  simp [getComment, fmtNum]

theorem infoDefaultStr_conf (nm : Option Str) (b : Dec) (v : PyNum)
    (cm : Option Str) (cl : List Clade) (hp : Bool)
    (hfb : pyFloat (fmtFixed 5 b) = some (.float b)) :
    infoDefaultStr (.mk nm (some (.float b)) (some v) cm cl hp none) false =
      fmtNum 2 v ++ ':' :: fmtFixed 5 b := by
  simp only [infoDefaultStr]
  rw [if_neg (by simp)]
  show fmtNum 2 ((some v).getD (.int 0)) ++
    ':' :: fmtNum 5 (blOrZero (some (.float b))) ++
    getComment (.mk nm (some (.float b)) (some v) cm cl hp none) = _
  rw [blOrZero_wOK b hfb]
  simp [getComment, fmtNum]

theorem fmtFixed_chars (prec : Nat) (d : Dec) :
    ∀ ch ∈ fmtFixed prec d, isDig ch = true ∨ ch = '-' ∨ ch = '.' := by
  intro ch hch
  have hnat : ∀ m, ch ∈ fmtFixedNat prec m → isDig ch = true ∨ ch = '-' ∨ ch = '.' := by
    intro m hm
    unfold fmtFixedNat at hm
    split at hm
    · exact Or.inl (natDigits_all_dig _ _ hm)
    · simp only [List.mem_append, List.mem_cons] at hm
      rcases hm with hm | hm | hm
      · exact Or.inl (natDigits_all_dig _ _ hm)
      · exact Or.inr (Or.inr hm)
      · have hall := padZeros_all_dig prec (natDigits (m % 10 ^ prec)) (natDigits_all' _)
        rw [List.all_eq_true] at hall
        exact Or.inl (hall ch hm)
  unfold fmtFixed at hch
  split at hch
  · simp only [List.singleton_append, List.mem_cons] at hch
    rcases hch with hch | hch
    · exact Or.inr (Or.inl hch)
    · exact hnat _ hch
  · rw [List.nil_append] at hch
    exact hnat _ hch

theorem nameOK_fmtFixed (prec : Nat) (d : Dec) :
    nameOK (some (fmtFixed prec d)) = true := by
  simp only [nameOK, Bool.and_eq_true, Bool.not_eq_true']
  refine ⟨by simp [List.isEmpty_iff, fmtFixed_ne_nil], ?_⟩
  rw [List.all_eq_true]
  intro ch hch
  simp only [Bool.and_eq_true, decide_eq_true_eq]
  rcases fmtFixed_chars prec d ch hch with hd | hd | hd
  · have hv := isDig_val ch hd
    refine ⟨⟨?_, ?_⟩, ?_⟩ <;> intro hq <;> rw [hq] at hv <;> revert hv <;> decide
  · rw [hd]; exact ⟨⟨by decide, by decide⟩, by decide⟩
  · rw [hd]; exact ⟨⟨by decide, by decide⟩, by decide⟩

theorem wListOK_cons (c : Clade) (l : List Clade)
    (h : wListOK (c :: l) = true) : wOK c = true ∧ wListOK l = true := by
  have h2 : (wOK c && wListOK l) = true := h
  simpa [Bool.and_eq_true] using h2

theorem tokenize_render_aux : ∀ n : Nat,
    (∀ c : Clade, cladeSize c ≤ n → wOK c = true → ∀ (stop : Char) (r : Str),
        stop = ',' ∨ stop = ')' ∨ stop = ';' →
        tokenize (renderClade c ++ stop :: r) = cladeToks c ++ tokenize (stop :: r)) ∧
    (∀ cl : List Clade, cladeListSize cl ≤ n → wListOK cl = true → cl ≠ [] →
        ∀ r : Str,
        tokenize (renderList cl ++ ')' :: r) =
          cladeListToks cl ++ tokenize (')' :: r)) := by
  intro n
  induction n with
  | zero =>
    constructor
    · intro c hsz
      rw [cladeSize_eq] at hsz
      omega
    · intro cl hsz _ hne
      match cl with
      | [] => exact absurd rfl hne
      | c1 :: cl' => simp [cladeListSize] at hsz
  | succ n ih =>
    constructor
    · intro c hsz h stop r hstop
      obtain ⟨nm, bl, cf, cm, cl, hp, co⟩ := c
      have hsz2 : cladeListSize cl ≤ n := by
        simp only [cladeSize] at hsz
        omega
      obtain ⟨hname, ⟨b, hbl, hfb⟩, hleafcf, hintcf, hco, hlist⟩ :=
        wOK_parts nm bl cf cm cl hp co h
      subst hbl
      subst hco
      cases cl with
      | nil =>
        have hcf : cf = none := hleafcf rfl
        subst hcf
        rw [renderClade_mk, if_pos List.isEmpty_nil, cladeToks_mk,
          if_pos List.isEmpty_nil,
          infoDefaultStr_noconf nm b cm [] hp true hfb]
        have hshape : (writerLabel (nm.getD []) ++ ':' :: fmtFixed 5 b) ++ stop :: r =
            writerLabel (nm.getD []) ++ ':' :: (fmtFixed 5 b ++ stop :: r) := by
          simp
        rw [hshape, tokenize_label_edge nm hname b stop r hstop]
        simp [blDec]
      | cons c1 cl' =>
        rcases hintcf (by simp) with ⟨hcf, hnmconf⟩ | ⟨v, hcf, hnm, hconf⟩
        · subst hcf
          rw [renderClade_mk, if_neg (by simp), cladeToks_mk, if_neg (by simp),
            infoDefaultStr_noconf nm b cm (c1 :: cl') hp false hfb]
          have hshape : ('(' :: renderList (c1 :: cl') ++
              ')' :: writerLabel (nm.getD []) ++ ':' :: fmtFixed 5 b) ++ stop :: r =
              '(' :: (renderList (c1 :: cl') ++
                ')' :: (writerLabel (nm.getD []) ++
                  ':' :: (fmtFixed 5 b ++ stop :: r))) := by
            simp
          rw [hshape]
          rw [tokenize_cons_tok (tokStep_popen _)]
          rw [ih.2 (c1 :: cl') hsz2 hlist (by simp) _]
          rw [tokenize_cons_tok (tokStep_pclose _)]
          rw [tokenize_label_edge nm hname b stop r hstop]
          simp [preName, blDec]
        · subst hcf
          subst hnm
          rw [renderClade_mk, if_neg (by simp), cladeToks_mk, if_neg (by simp),
            infoDefaultStr_conf none b v cm (c1 :: cl') hp hfb]
          obtain ⟨dv, hdv⟩ := conf_fmt_shape v hconf
          have hnamev : nameOK (some (fmtNum 2 v)) = true := by
            rw [hdv]; exact nameOK_fmtFixed 2 dv
          have hshape : ('(' :: renderList (c1 :: cl') ++
              ')' :: writerLabel (Option.getD none []) ++
                (fmtNum 2 v ++ ':' :: fmtFixed 5 b)) ++ stop :: r =
              '(' :: (renderList (c1 :: cl') ++
                ')' :: (writerLabel ((some (fmtNum 2 v)).getD []) ++
                  ':' :: (fmtFixed 5 b ++ stop :: r))) := by
            have hwl : writerLabel ((some (fmtNum 2 v)).getD []) = fmtNum 2 v := by
              rw [Option.getD_some, hdv]
              exact writerLabel_all _ (fmtFixed_ne_nil 2 dv) (fmtFixed_all_label 2 dv)
            rw [hwl]
            simp [writerLabel]
          rw [hshape]
          rw [tokenize_cons_tok (tokStep_popen _)]
          rw [ih.2 (c1 :: cl') hsz2 hlist (by simp) _]
          rw [tokenize_cons_tok (tokStep_pclose _)]
          rw [tokenize_label_edge (some (fmtNum 2 v)) hnamev b stop r hstop]
          simp [preName, blDec]
    · intro cl hsz h hne r
      match cl with
      | [] => exact absurd rfl hne
      | [c1] =>
        obtain ⟨h1, _⟩ := wListOK_cons c1 [] h
        have hsz1 : cladeSize c1 ≤ n := by
          simp only [cladeListSize] at hsz
          omega
        show tokenize (renderClade c1 ++ ')' :: r) = cladeToks c1 ++ tokenize (')' :: r)
        exact ih.1 c1 hsz1 h1 ')' r (Or.inr (Or.inl rfl))
      | c1 :: c2 :: l' =>
        obtain ⟨h1, hrest⟩ := wListOK_cons c1 (c2 :: l') h
        have hx : cladeListSize (c1 :: c2 :: l') =
            1 + cladeSize c1 + cladeListSize (c2 :: l') := rfl
        rw [hx] at hsz
        have hc2pos : 0 < cladeListSize (c2 :: l') := by
          simp only [cladeListSize]
          omega
        have hsz1 : cladeSize c1 ≤ n ∧ cladeListSize (c2 :: l') ≤ n := by
          omega
        show tokenize ((renderClade c1 ++ ',' :: renderList (c2 :: l')) ++ ')' :: r) =
          (cladeToks c1 ++ Tok.comma :: cladeListToks (c2 :: l')) ++
            tokenize (')' :: r)
        have hshape : (renderClade c1 ++ ',' :: renderList (c2 :: l')) ++ ')' :: r =
            renderClade c1 ++ ',' :: (renderList (c2 :: l') ++ ')' :: r) := by
          simp
        rw [hshape, ih.1 c1 hsz1.1 h1 ',' _ (Or.inl rfl),
          tokenize_cons_tok (tokStep_comma _),
          ih.2 (c2 :: l') hsz1.2 hrest (by simp) r]
        simp

theorem tokenize_render (c : Clade) (h : wOK c = true) (stop : Char) (r : Str)
    (hstop : stop = ',' ∨ stop = ')' ∨ stop = ';') :
    tokenize (renderClade c ++ stop :: r) = cladeToks c ++ tokenize (stop :: r) :=
  (tokenize_render_aux (cladeSize c)).1 c (le_refl _) h stop r hstop

theorem tokenize_renderList (cl : List Clade) (h : wListOK cl = true)
    (hne : cl ≠ []) (r : Str) :
    tokenize (renderList cl ++ ')' :: r) = cladeListToks cl ++ tokenize (')' :: r) :=
  (tokenize_render_aux (cladeListSize cl)).2 cl (le_refl _) h hne r

theorem expectedList_ne_nil (cl : List Clade) (h : cl ≠ []) :
    expectedList cl ≠ [] := by
  match cl with
  | [] => exact absurd rfl h
  | c :: l => simp [expectedList]

theorem preOf_mk (nm : Option Str) (bl cf : Option PyNum) (cm : Option Str)
    (cl : List Clade) (hp0 : Bool) (co : Option Str) (hp : Bool) :
    preOf (.mk nm bl cf cm cl hp0 co) hp =
      if cl.isEmpty then ⟨nm, bl, none, none, [], hp, none⟩
      else ⟨preName cf nm, bl, none, none, expectedList cl, hp, none⟩ := rfl

theorem expectedImage_mk (nm : Option Str) (bl cf : Option PyNum) (cm : Option Str)
    (cl : List Clade) (hp0 : Bool) (co : Option Str) :
    expectedImage (.mk nm bl cf cm cl hp0 co) =
      .mk nm bl (cf.map fun v => .float (numToDec v)) none (expectedList cl)
        false none := rfl

theorem heur_preOf (c : Clade) (h : wOK c = true) (hp : Bool) :
    applyHeuristic {} (preOf c hp) = { expectedImage c with hasParent := hp } := by
  obtain ⟨nm, bl, cf, cm, cl, hp0, co⟩ := c
  obtain ⟨hname, ⟨b, hbl, hfb⟩, hleafcf, hintcf, hco, hlist⟩ :=
    wOK_parts nm bl cf cm cl hp0 co h
  cases cl with
  | nil =>
    have hcf : cf = none := hleafcf rfl
    subst hcf
    rw [preOf_mk, if_pos List.isEmpty_nil, expectedImage_mk]
    simp only [applyHeuristic]
    rw [if_neg (by simp)]
    simp [expectedList]
  | cons c1 cl' =>
    have hEne : expectedList (c1 :: cl') ≠ [] := expectedList_ne_nil _ (by simp)
    rcases hintcf (by simp) with ⟨hcf, hnmconf⟩ | ⟨v, hcf, hnm, hconf⟩
    · subst hcf
      rw [preOf_mk, if_neg (by simp), expectedImage_mk]
      match nm with
      | none =>
        simp only [applyHeuristic]
        rw [if_neg (by simp [preName])]
        simp [preName]
      | some s =>
        obtain ⟨hne, _⟩ := nameOK_some s hname
        simp only [applyHeuristic]
        rw [if_pos (by simp [preName, List.isEmpty_iff, hne, hEne])]
        show (match parseConfidence ((preName none (some s)).getD []) with
          | some v => _
          | none => _) = _
        simp only [preName, Option.getD_some]
        rw [hnmconf s rfl]
        simp [preName]
    · subst hcf
      subst hnm
      rw [preOf_mk, if_neg (by simp), expectedImage_mk]
      obtain ⟨dv, hdv⟩ := conf_fmt_shape v hconf
      have hvne : fmtNum 2 v ≠ [] := by rw [hdv]; exact fmtFixed_ne_nil 2 dv
      simp only [applyHeuristic]
      rw [if_pos (by simp [preName, List.isEmpty_iff, hvne, hEne])]
      show (match parseConfidence ((preName (some v) none).getD []) with
        | some w => _
        | none => _) = _
      simp only [preName, Option.getD_some]
      rw [hconf]
      simp

theorem heur_image (c : Clade) (h : wOK c = true) :
    applyHeuristic {} (expectedImage c) = expectedImage c := by
  obtain ⟨nm, bl, cf, cm, cl, hp0, co⟩ := c
  obtain ⟨hname, ⟨b, hbl, hfb⟩, hleafcf, hintcf, hco, hlist⟩ :=
    wOK_parts nm bl cf cm cl hp0 co h
  cases cl with
  | nil =>
    rw [expectedImage_mk]
    simp only [applyHeuristic]
    rw [if_neg (by simp [expectedList])]
  | cons c1 cl' =>
    rcases hintcf (by simp) with ⟨hcf, hnmconf⟩ | ⟨v, hcf, hnm, hconf⟩
    · subst hcf
      rw [expectedImage_mk]
      match nm with
      | none =>
        simp only [applyHeuristic]
        rw [if_neg (by simp)]
      | some s =>
        obtain ⟨hne, _⟩ := nameOK_some s hname
        have hEne : expectedList (c1 :: cl') ≠ [] := expectedList_ne_nil _ (by simp)
        simp only [applyHeuristic]
        rw [if_pos (by simp [List.isEmpty_iff, hne, hEne])]
        show (match parseConfidence ((some s).getD []) with
          | some v => _
          | none => _) = _
        simp only [Option.getD_some]
        rw [hnmconf s rfl]
        simp
    · subst hcf
      subst hnm
      rw [expectedImage_mk]
      simp only [applyHeuristic]
      rw [if_neg (by simp)]

theorem set_hasParent_image (c : Clade) :
    ({ expectedImage c with hasParent := false } : Clade) = expectedImage c := by
  obtain ⟨nm, bl, cf, cm, cl, hp0, co⟩ := c
  rfl

theorem update_update (x : Clade) (b : Bool) :
    ({ { x with hasParent := b } with hasParent := false } : Clade) =
      { x with hasParent := false } := by
  cases x
  rfl

theorem processed_preOf (c : Clade) (h : wOK c = true) (hp : Bool) :
    ({ (applyHeuristic {} (preOf c hp)) with hasParent := false } : Clade) =
      expectedImage c := by
  rw [heur_preOf c h hp, update_update, set_hasParent_image]

theorem runToks_unquoted (s : Str) (ts : List Tok) (st : PState) :
    runToks {} (Tok.unquoted s :: ts) st =
      runToks {} ts { st with top := { st.top with name := some s } } := by
  simp only [runToks]

theorem runToks_quoted_tok (s : Str) (ts : List Tok) (st : PState) :
    runToks {} (Tok.quoted s :: ts) st =
      runToks {} ts { st with top := { st.top with name := some s } } := by
  simp only [runToks]

theorem runToks_edge_default (pay : Str) (v : PyNum) (hv : pyFloat pay = some v)
    (ts : List Tok) (st : PState) :
    runToks {} (Tok.edge pay :: ts) st =
      runToks {} ts { st with top := { st.top with branch_length := some v } } := by
  simp only [runToks, hv]
  rfl

theorem runToks_popen_tok (ts : List Tok) (top : Clade) (above : List Clade)
    (lp rp : Nat) :
    runToks {} (Tok.popen :: ts) ⟨top, above, lp, rp⟩ =
      runToks {} ts ⟨newClade true, top :: above, lp + 1, rp⟩ := by
  simp only [runToks]

theorem runToks_comma_cons (ts : List Tok) (top p : Clade) (rest2 : List Clade)
    (lp rp : Nat) :
    runToks {} (Tok.comma :: ts) ⟨top, p :: rest2, lp, rp⟩ =
      runToks {} ts
        ⟨newClade true,
          { p with clades :=
              p.clades ++ [{ (applyHeuristic {} top) with hasParent := false }] } :: rest2,
          lp, rp⟩ := by
  simp only [runToks]

theorem runToks_pclose_cons (ts : List Tok) (top p : Clade) (rest2 : List Clade)
    (lp rp : Nat) :
    runToks {} (Tok.pclose :: ts) ⟨top, p :: rest2, lp, rp⟩ =
      runToks {} ts
        ⟨{ p with clades :=
            p.clades ++ [{ (applyHeuristic {} top) with hasParent := false }] },
          rest2, lp, rp + 1⟩ := by
  simp only [runToks, processTop]

theorem runToks_labelToks_some (s : Str) (hse : ¬ s.isEmpty = true)
    (ts2 : List Tok) (st : PState) :
    runToks {} (labelToks (some s) ++ ts2) st =
      runToks {} ts2 { st with top := { st.top with name := some s } } := by
  by_cases hall : s.all isLabelChar = true
  · simp only [labelToks, if_neg hse, if_pos hall, List.cons_append, List.nil_append]
    rw [runToks_unquoted]
  · simp only [labelToks, if_neg hse, if_neg hall, List.cons_append, List.nil_append]
    rw [runToks_quoted_tok]

theorem opensOf_mk (nm : Option Str) (bl cf : Option PyNum) (cm : Option Str)
    (cl : List Clade) (hp0 : Bool) (co : Option Str) :
    opensOf (.mk nm bl cf cm cl hp0 co) =
      if cl.isEmpty then 0 else 1 + listOpens cl := rfl

theorem newClade_eq (b : Bool) :
    newClade b = ⟨none, none, none, none, [], b, none⟩ := rfl

theorem runToks_render_aux : ∀ n : Nat,
    (∀ c : Clade, cladeSize c ≤ n → wOK c = true →
      ∀ (ts : List Tok) (hp : Bool) (above : List Clade) (lp rp : Nat),
      runToks {} (cladeToks c ++ ts) ⟨newClade hp, above, lp, rp⟩ =
        runToks {} ts ⟨preOf c hp, above, lp + opensOf c, rp + opensOf c⟩) ∧
    (∀ cl : List Clade, cladeListSize cl ≤ n → wListOK cl = true → cl ≠ [] →
      ∀ (ts : List Tok) (p : Clade) (above : List Clade) (lp rp : Nat),
      runToks {} (cladeListToks cl ++ Tok.pclose :: ts)
          ⟨newClade true, p :: above, lp, rp⟩ =
        runToks {} ts
          ⟨{ p with clades := p.clades ++ expectedList cl }, above,
            lp + listOpens cl, rp + listOpens cl + 1⟩) := by
  intro n
  induction n with
  | zero =>
    constructor
    · intro c hsz
      rw [cladeSize_eq] at hsz
      omega
    · intro cl hsz _ hne
      match cl with
      | [] => exact absurd rfl hne
      | c1 :: cl' => simp [cladeListSize] at hsz
  | succ n ih =>
    constructor
    · intro c hsz h ts hp above lp rp
      obtain ⟨nm, bl, cf, cm, cl, hp0, co⟩ := c
      have hsz2 : cladeListSize cl ≤ n := by
        simp only [cladeSize] at hsz
        omega
      obtain ⟨hname, ⟨b, hbl, hfb⟩, hleafcf, hintcf, hco, hlist⟩ :=
        wOK_parts nm bl cf cm cl hp0 co h
      subst hbl
      subst hco
      have hedge : ∀ (st : PState),
          runToks {} (Tok.edge (fmtFixed 5 (blDec (some (PyNum.float b)))) :: ts) st =
            runToks {} ts
              { st with top :=
                  { st.top with branch_length := some (PyNum.float b) } } :=
        fun st => runToks_edge_default _ _
          (by rw [show blDec (some (PyNum.float b)) = b from rfl]; exact hfb) ts st
      cases cl with
      | nil =>
        have hcf : cf = none := hleafcf rfl
        subst hcf
        rw [cladeToks_mk, if_pos List.isEmpty_nil, preOf_mk, if_pos List.isEmpty_nil,
          opensOf_mk, if_pos List.isEmpty_nil]
        match nm with
        | none =>
          simp only [labelToks, List.nil_append, List.singleton_append]
          rw [hedge]
          simp [newClade_eq]
        | some s =>
          obtain ⟨hne, _⟩ := nameOK_some s hname
          have hse : ¬ s.isEmpty = true := by simp [List.isEmpty_iff, hne]
          rw [List.append_assoc, runToks_labelToks_some s hse _ _]
          simp only [List.singleton_append, List.nil_append]
          rw [hedge]
          simp [newClade_eq]
      | cons c1 cl' =>
        have hpre : preName cf nm = none ∨
            ∃ s, preName cf nm = some s ∧ ¬ s.isEmpty = true := by
          rcases hintcf (by simp) with ⟨hcf, _⟩ | ⟨v, hcf, hnm, hconf⟩
          · subst hcf
            match nm with
            | none => exact Or.inl rfl
            | some s =>
              refine Or.inr ⟨s, rfl, ?_⟩
              simpa [List.isEmpty_iff] using (nameOK_some s hname).1
          · subst hcf
            subst hnm
            obtain ⟨dv, hdv⟩ := conf_fmt_shape v hconf
            refine Or.inr ⟨fmtNum 2 v, rfl, ?_⟩
            rw [hdv]
            simpa [List.isEmpty_iff] using fmtFixed_ne_nil 2 dv
        rw [cladeToks_mk, if_neg (by simp), preOf_mk, if_neg (by simp),
          opensOf_mk, if_neg (by simp)]
        simp only [List.cons_append, List.append_assoc]
        rw [runToks_popen_tok]
        rw [ih.2 (c1 :: cl') hsz2 hlist (by simp) _ (newClade hp) above (lp + 1) rp]
        rcases hpre with hpre | ⟨s, hpre, hsne⟩
        · rw [hpre]
          simp only [labelToks, List.nil_append, List.singleton_append]
          rw [hedge]
          simp [newClade_eq, Nat.add_assoc, Nat.add_comm, Nat.add_left_comm]
        · rw [hpre]
          rw [runToks_labelToks_some s hsne _ _]
          simp only [List.singleton_append, List.nil_append]
          rw [hedge]
          simp [newClade_eq, Nat.add_assoc, Nat.add_comm, Nat.add_left_comm]
    · intro cl hsz h hne ts p above lp rp
      match cl with
      | [] => exact absurd rfl hne
      | [c1] =>
        obtain ⟨h1, _⟩ := wListOK_cons c1 [] h
        have hsz1 : cladeSize c1 ≤ n := by
          simp only [cladeListSize] at hsz
          omega
        show runToks {} (cladeToks c1 ++ Tok.pclose :: ts) _ = _
        rw [ih.1 c1 hsz1 h1 (Tok.pclose :: ts) true (p :: above) lp rp]
        rw [runToks_pclose_cons]
        rw [processed_preOf c1 h1 true]
        simp [expectedList, listOpens]
      | c1 :: c2 :: l' =>
        obtain ⟨h1, hrest⟩ := wListOK_cons c1 (c2 :: l') h
        have hx : cladeListSize (c1 :: c2 :: l') =
            1 + cladeSize c1 + cladeListSize (c2 :: l') := rfl
        rw [hx] at hsz
        have hpos : 0 < cladeListSize (c2 :: l') := by
          simp only [cladeListSize]
          omega
        have hsz1 : cladeSize c1 ≤ n := by omega
        have hsz2 : cladeListSize (c2 :: l') ≤ n := by omega
        show runToks {} ((cladeToks c1 ++ Tok.comma :: cladeListToks (c2 :: l')) ++
          Tok.pclose :: ts) _ = _
        have hshape : (cladeToks c1 ++ Tok.comma :: cladeListToks (c2 :: l')) ++
            Tok.pclose :: ts =
            cladeToks c1 ++
              (Tok.comma :: (cladeListToks (c2 :: l') ++ Tok.pclose :: ts)) := by
          simp
        rw [hshape, ih.1 c1 hsz1 h1 _ true (p :: above) lp rp]
        rw [runToks_comma_cons]
        rw [processed_preOf c1 h1 true]
        rw [ih.2 (c2 :: l') hsz2 hrest (by simp) ts _ above _ _]
        simp [expectedList, listOpens, Nat.add_assoc, Nat.add_comm, Nat.add_left_comm]

theorem runToks_render (c : Clade) (h : wOK c = true) (ts : List Tok) (hp : Bool)
    (above : List Clade) (lp rp : Nat) :
    runToks {} (cladeToks c ++ ts) ⟨newClade hp, above, lp, rp⟩ =
      runToks {} ts ⟨preOf c hp, above, lp + opensOf c, rp + opensOf c⟩ :=
  (runToks_render_aux (cladeSize c)).1 c (le_refl _) h ts hp above lp rp

theorem isLabelChar_not_space (c : Char) (h : isLabelChar c = true) :
    isPySpace c = false := by
  simp only [isLabelChar, Bool.and_eq_true, Bool.not_eq_true'] at h
  exact h.1.1.1.1.1.1.1.1

theorem render_head (c : Clade) (h : wOK c = true) :
    ∃ c0 t, renderClade c = c0 :: t ∧ isPySpace c0 = false := by
  obtain ⟨nm, bl, cf, cm, cl, hp0, co⟩ := c
  obtain ⟨hname, ⟨b, hbl, hfb⟩, hleafcf, hintcf, hco, hlist⟩ :=
    wOK_parts nm bl cf cm cl hp0 co h
  subst hbl
  subst hco
  cases cl with
  | cons c1 cl' =>
    rw [renderClade_mk, if_neg (by simp)]
    exact ⟨'(', _, rfl, by decide⟩
  | nil =>
    have hcf : cf = none := hleafcf rfl
    subst hcf
    rw [renderClade_mk, if_pos List.isEmpty_nil,
      infoDefaultStr_noconf nm b cm [] hp0 true hfb]
    match nm with
    | none => exact ⟨':', fmtFixed 5 b, rfl, by decide⟩
    | some s =>
      obtain ⟨hne, _⟩ := nameOK_some s hname
      by_cases hall : s.all isLabelChar = true
      · rw [show (some s : Option Str).getD [] = s from rfl, writerLabel_all s hne hall]
        match s, hne, hall with
        | ch :: s', _, hall =>
          simp only [List.all_cons, Bool.and_eq_true] at hall
          exact ⟨ch, s' ++ ':' :: fmtFixed 5 b, by rw [List.cons_append],
            isLabelChar_not_space ch hall.1⟩
      · rw [show (some s : Option Str).getD [] = s from rfl]
        rw [show writerLabel s = squote :: escLabel s ++ [squote] from by
          unfold writerLabel
          rw [if_neg (by simp [List.isEmpty_iff, hne]), if_neg hall]]
        exact ⟨squote, escLabel s ++ [squote] ++ ':' :: fmtFixed 5 b,
          by simp, by decide⟩

theorem fmtFixed_no_nl (prec : Nat) (d : Dec) :
    ∀ ch ∈ fmtFixed prec d, ch ≠ '\n' := by
  intro ch hch heq
  rcases fmtFixed_chars prec d ch hch with hd | hd | hd
  · rw [heq] at hd
    exact absurd hd (by decide)
  · rw [heq] at hd
    exact absurd hd (by decide)
  · rw [heq] at hd
    exact absurd hd (by decide)

theorem writerLabel_no_nl (nm : Option Str) (hname : nameOK nm = true) :
    ∀ ch ∈ writerLabel (nm.getD []), ch ≠ '\n' := by
  match nm with
  | none => intro ch hch; simp [writerLabel] at hch
  | some s =>
    obtain ⟨hne, hchars⟩ := nameOK_some s hname
    intro ch hch
    by_cases hall : s.all isLabelChar = true
    · rw [show (some s : Option Str).getD [] = s from rfl,
        writerLabel_all s hne hall] at hch
      exact (hchars ch hch).2.2
    · rw [show (some s : Option Str).getD [] = s from rfl] at hch
      rw [show writerLabel s = squote :: escLabel s ++ [squote] from by
        unfold writerLabel
        rw [if_neg (by simp [List.isEmpty_iff, hne]), if_neg hall]] at hch
      rw [escLabel_clean s (fun c hm => ⟨(hchars c hm).1, (hchars c hm).2.1⟩)] at hch
      simp only [List.cons_append, List.append_assoc, List.mem_cons,
        List.mem_append, List.mem_singleton] at hch
      rcases hch with hch | hch | hch | hch
      · rw [hch]; decide
      · exact (hchars ch hch).2.2
      · rw [hch]; decide
      · simp at hch

theorem render_no_nl_aux : ∀ n : Nat,
    (∀ c : Clade, cladeSize c ≤ n → wOK c = true →
      ∀ ch ∈ renderClade c, ch ≠ '\n') ∧
    (∀ cl : List Clade, cladeListSize cl ≤ n → wListOK cl = true →
      ∀ ch ∈ renderList cl, ch ≠ '\n') := by
  intro n
  induction n with
  | zero =>
    constructor
    · intro c hsz
      rw [cladeSize_eq] at hsz
      omega
    · intro cl hsz _
      match cl with
      | [] => intro ch hch; simp [renderList] at hch
      | c1 :: cl' => simp [cladeListSize] at hsz
  | succ n ih =>
    constructor
    · intro c hsz h ch hch
      obtain ⟨nm, bl, cf, cm, cl, hp0, co⟩ := c
      have hsz2 : cladeListSize cl ≤ n := by
        simp only [cladeSize] at hsz
        omega
      obtain ⟨hname, ⟨b, hbl, hfb⟩, hleafcf, hintcf, hco, hlist⟩ :=
        wOK_parts nm bl cf cm cl hp0 co h
      subst hbl
      subst hco
      cases cl with
      | nil =>
        have hcf : cf = none := hleafcf rfl
        subst hcf
        rw [renderClade_mk, if_pos List.isEmpty_nil,
          infoDefaultStr_noconf nm b cm [] hp0 true hfb] at hch
        simp only [List.mem_append, List.mem_cons] at hch
        rcases hch with hch | hch | hch
        · exact writerLabel_no_nl nm hname ch hch
        · rw [hch]; decide
        · exact fmtFixed_no_nl 5 b ch hch
      | cons c1 cl' =>
        rcases hintcf (by simp) with ⟨hcf, _⟩ | ⟨v, hcf, hnm, hconf⟩
        · subst hcf
          rw [renderClade_mk, if_neg (by simp),
            infoDefaultStr_noconf nm b cm (c1 :: cl') hp0 false hfb] at hch
          simp only [List.cons_append, List.append_assoc, List.mem_cons,
            List.mem_append] at hch
          rcases hch with hch | hch | hch | hch | hch | hch
          · rw [hch]; decide
          · exact ih.2 (c1 :: cl') hsz2 hlist ch hch
          · rw [hch]; decide
          · exact writerLabel_no_nl nm hname ch hch
          · rw [hch]; decide
          · exact fmtFixed_no_nl 5 b ch hch
        · subst hcf
          subst hnm
          rw [renderClade_mk, if_neg (by simp),
            infoDefaultStr_conf none b v cm (c1 :: cl') hp0 hfb] at hch
          obtain ⟨dv, hdv⟩ := conf_fmt_shape v hconf
          rw [hdv] at hch
          simp only [List.cons_append, List.append_assoc, List.mem_cons,
            List.mem_append, show writerLabel ((none : Option Str).getD []) = []
              from rfl, List.nil_append] at hch
          rcases hch with hch | hch | hch | hch | hch | hch
          · rw [hch]; decide
          · exact ih.2 (c1 :: cl') hsz2 hlist ch hch
          · rw [hch]; decide
          · exact fmtFixed_no_nl 2 dv ch hch
          · rw [hch]; decide
          · exact fmtFixed_no_nl 5 b ch hch
    · intro cl hsz h ch hch
      match cl with
      | [] => simp [renderList] at hch
      | [c1] =>
        obtain ⟨h1, _⟩ := wListOK_cons c1 [] h
        have hsz1 : cladeSize c1 ≤ n := by
          simp only [cladeListSize] at hsz
          omega
        exact ih.1 c1 hsz1 h1 ch hch
      | c1 :: c2 :: l' =>
        obtain ⟨h1, hrest⟩ := wListOK_cons c1 (c2 :: l') h
        have hx : cladeListSize (c1 :: c2 :: l') =
            1 + cladeSize c1 + cladeListSize (c2 :: l') := rfl
        rw [hx] at hsz
        have hpos : 0 < cladeListSize (c2 :: l') := by
          simp only [cladeListSize]
          omega
        have hsz1 : cladeSize c1 ≤ n := by omega
        have hsz2 : cladeListSize (c2 :: l') ≤ n := by omega
        rw [show renderList (c1 :: c2 :: l') =
          renderClade c1 ++ ',' :: renderList (c2 :: l') from rfl] at hch
        simp only [List.mem_append, List.mem_cons] at hch
        rcases hch with hch | hch | hch
        · exact ih.1 c1 hsz1 h1 ch hch
        · rw [hch]; decide
        · exact ih.2 (c2 :: l') hsz2 hrest ch hch

theorem render_no_nl (c : Clade) (h : wOK c = true) :
    ∀ ch ∈ renderClade c, ch ≠ '\n' :=
  (render_no_nl_aux (cladeSize c)).1 c (le_refl _) h

theorem pyLines_single (s : Str) (hne : s ≠ []) (hnl : ∀ ch ∈ s, ch ≠ '\n') :
    pyLines s = [s] := by
  induction s with
  | nil => exact absurd rfl hne
  | cons c rest ih =>
    have hc : c ≠ '\n' := hnl c (List.mem_cons_self c rest)
    simp only [pyLines, if_neg hc]
    match rest with
    | [] => rfl
    | x :: xs =>
      rw [ih (by simp) (fun ch hm => hnl ch (List.mem_cons_of_mem c hm))]

theorem pyRstrip_concat_semi (m : Str) : pyRstrip (m ++ [';']) = m ++ [';'] := by
  unfold pyRstrip
  rw [List.reverse_append]
  simp only [List.reverse_cons, List.reverse_nil, List.nil_append,
    List.singleton_append]
  rw [List.dropWhile_cons]
  rw [show (isPySpace ';' : Bool) = false from by decide]
  simp

theorem pyStrip_concat_semi (c0 : Char) (m : Str) (h1 : isPySpace c0 = false) :
    pyStrip ((c0 :: m) ++ [';']) = (c0 :: m) ++ [';'] := by
  unfold pyStrip
  rw [List.cons_append, List.dropWhile_cons, h1]
  simp only [Bool.false_eq_true, if_false]
  rw [show (c0 :: (m ++ [';'])).reverse = (';' :: (m.reverse ++ [c0]) : Str) from by
    simp]
  rw [List.dropWhile_cons]
  rw [show (isPySpace ';' : Bool) = false from by decide]
  simp

theorem segments_render (c : Clade) (h : wOK c = true) :
    segments (renderClade c ++ [';']) = [renderClade c ++ [';']] := by
  obtain ⟨c0, t, hhead, hc0⟩ := render_head c h
  unfold segments
  rw [pyLines_single (renderClade c ++ [';']) (by simp) ?nl]
  case nl =>
    intro ch hch
    simp only [List.mem_append, List.mem_singleton] at hch
    rcases hch with hch | hch
    · exact render_no_nl c h ch hch
    · rw [hch]; decide
  unfold segmentsAux
  rw [List.nil_append, pyRstrip_concat_semi]
  rw [if_pos (by simp)]
  rfl

theorem runToks_semi_only (st : PState) :
    runToks {} [Tok.semi] st = .ok (st, []) := by
  simp only [runToks]

theorem parseTree_eq (fl : PFlags) (text : Str) :
    parseTree fl text =
      match runToks fl (tokenize (pyStrip text)) ⟨newClade false, [], 0, 0⟩ with
      | .error e => .error e
      | .ok (st, rem) =>
        if st.lp ≠ st.rp then
          .error (.newick ("Number of open/close parentheses do not match.".toList))
        else
          match rem with
          | t :: _ =>
            .error (.newick ("Text after semicolon in Newick tree: ".toList ++ t.text))
          | [] =>
            .ok { root := lastOf (finalizeStack fl st.top st.above).1
                    (finalizeStack fl st.top st.above).2,
                  rooted := fl.rooted } := by
  cases hrun : runToks fl (tokenize (pyStrip text)) ⟨newClade false, [], 0, 0⟩ with
  | error e =>
    unfold parseTree
    rw [hrun]
    rfl
  | ok p =>
    obtain ⟨st, rem⟩ := p
    unfold parseTree
    rw [hrun]
    rfl

theorem parseTree_render (c : Clade) (h : wOK c = true) :
    parseTree {} (renderClade c ++ [';']) = .ok { root := expectedImage c } := by
  obtain ⟨c0, t, hhead, hc0⟩ := render_head c h
  have hstrip : pyStrip (renderClade c ++ [';']) = renderClade c ++ [';'] := by
    rw [hhead]
    exact pyStrip_concat_semi c0 t hc0
  have htok : tokenize (renderClade c ++ [';']) = cladeToks c ++ [Tok.semi] := by
    rw [tokenize_render c h ';' [] (Or.inr (Or.inr rfl))]
    rfl
  have hheur : applyHeuristic {} (applyHeuristic {} (preOf c false)) =
      expectedImage c := by
    rw [heur_preOf c h false, set_hasParent_image]
    exact heur_image c h
  rw [parseTree_eq, hstrip, htok, runToks_render c h [Tok.semi] false [] 0 0,
    runToks_semi_only]
  simp [finalizeStack, lastOf, hheur]

theorem mapM_parseTree_single (fl : PFlags) (s : Str) (t : NTree)
    (h : parseTree fl s = .ok t) :
    List.mapM (parseTree fl) [s] = .ok [t] := by
  simp [List.mapM, List.mapM.loop, h]

theorem parseNewick_render (c : Clade) (h : wOK c = true) :
    parseNewick {} (renderClade c ++ [';']) = .ok [{ root := expectedImage c }] := by
  unfold parseNewick
  rw [segments_render c h]
  exact mapM_parseTree_single {} _ _ (parseTree_render c h)

theorem toStrings_render (c : Clade) :
    toStrings {} [{ root := c }] = some [renderClade c ++ [';']] := by
  unfold toStrings
  simp [List.mapM, List.mapM.loop, newickize_renders c]

/-- C1 (amended): the write → parse round trip is exact precisely on the
`wOK` class of trees — every node carries a branch length whose
5-decimal rendering `float()`-parses back to itself, names are absent
or escapable (nonempty, no backslash, quote or newline, and not
reinterpretable as a confidence when on an internal node without one),
leaves carry no confidence, and an internal confidence survives the
2-decimal format → `_parse_confidence` round trip.  For such a tree,
default-mode writing produces exactly the rendered string, and
re-parsing it yields exactly one tree whose root is the expected image:
same topology, names and branch lengths, an integer confidence replaced
by the equal float, comments dropped.  (For trees outside this class
the round trip is inexact — see the counterexample.) -/
theorem c1_roundtrip_amended (c : Clade) (h : wOK c = true) :
    toStrings {} [{ root := c }] = some [renderClade c ++ [';']] ∧
    parseNewick {} (renderClade c ++ [';']) =
      .ok [{ root := expectedImage c }] :=
  ⟨toStrings_render c, parseNewick_render c h⟩

theorem c1_roundtrip_amended_witness :
    wOK c1WitnessClade = true ∧
    (toStrings {} [{ root := c1WitnessClade }] =
        some [renderClade c1WitnessClade ++ [';']] ∧
      parseNewick {} (renderClade c1WitnessClade ++ [';']) =
        .ok [{ root := expectedImage c1WitnessClade }]) :=
  ⟨by decide, c1_roundtrip_amended c1WitnessClade (by decide)⟩

theorem runToks_pcloseAtRoot (fl : PFlags) : ∀ (ts : List Tok) (st : PState),
    (∀ p, Tok.edge p ∈ ts → (pyFloat p).isSome) →
    pcloseAtRoot ts st.above.length = true →
    runToks fl ts st = .error (.newick ("Parenthesis mismatch.".toList)) := by
  intro ts
  induction ts with
  | nil => intro st _ h; simp [pcloseAtRoot] at h
  | cons t rest ih =>
    intro st hp h
    have hrest : ∀ p, Tok.edge p ∈ rest → (pyFloat p).isSome := by
      intro p hmem
      exact hp p (by simp [hmem])
    obtain ⟨top, above, lp, rp⟩ := st
    cases t with
    | popen =>
      show runToks fl rest ⟨newClade true, top :: above, lp + 1, rp⟩ = _
      refine ih ⟨newClade true, top :: above, lp + 1, rp⟩ hrest ?_
      simpa [pcloseAtRoot] using h
    | comma =>
      cases above with
      | nil =>
        simp only [pcloseAtRoot, List.length_nil, if_pos rfl] at h
        simp only [runToks]
        exact ih _ hrest (by simpa using h)
      | cons p rest2 =>
        simp only [pcloseAtRoot, List.length_cons, if_neg (Nat.succ_ne_zero _)] at h
        simp only [runToks]
        exact ih _ hrest (by simpa using h)
    | pclose =>
      cases above with
      | nil =>
        simp only [runToks, processTop]
      | cons p rest2 =>
        simp only [pcloseAtRoot, List.length_cons, if_neg (Nat.succ_ne_zero _)] at h
        simp only [runToks, processTop]
        exact ih _ hrest (by simpa using h)
    | semi => simp [pcloseAtRoot] at h
    | newline =>
      show runToks fl rest ⟨top, above, lp, rp⟩ = _
      exact ih _ hrest (by simpa [pcloseAtRoot] using h)
    | quoted s =>
      show runToks fl rest _ = _
      exact ih _ hrest (by simpa [pcloseAtRoot] using h)
    | unquoted s =>
      show runToks fl rest _ = _
      exact ih _ hrest (by simpa [pcloseAtRoot] using h)
    | comment s =>
      simp only [runToks]
      split
      · exact ih _ hrest (by simpa [pcloseAtRoot] using h)
      · exact ih _ hrest (by simpa [pcloseAtRoot] using h)
    | edge payload =>
      have hsome := hp payload (by simp)
      obtain ⟨v, hv⟩ := Option.isSome_iff_exists.mp hsome
      simp only [runToks, hv]
      split
      · exact ih _ hrest (by simpa [pcloseAtRoot] using h)
      · exact ih _ hrest (by simpa [pcloseAtRoot] using h)

/-- C7 (amended): if the tokens *before the first semicolon* of a
segment have unequal `(` and `)` counts, or a close-paren token arrives
while the cursor's parent chain is empty (the depth simulation
`pcloseAtRoot`), parsing raises one of the two parenthesis-mismatch
`NewickError`s — a close token at the root raises
"Parenthesis mismatch." immediately, otherwise the final counter
comparison raises "Number of open/close parentheses do not match." —
and no tree is produced.  (Counting tokens *after* a semicolon as the
claim stated is wrong: those trigger the trailing-text error instead —
see the counterexample.) -/
theorem c7_paren_mismatch (fl : PFlags) (text : Str)
    (h : countOpens (beforeSemi (tokenize (pyStrip text))) ≠
        countCloses (beforeSemi (tokenize (pyStrip text))) ∨
      pcloseAtRoot (tokenize (pyStrip text)) 0 = true) :
    parseTree fl text = .error (.newick ("Parenthesis mismatch.".toList)) ∨
    parseTree fl text =
      .error (.newick ("Number of open/close parentheses do not match.".toList)) := by
  rcases h with h | h
  · exact parse_counts_mismatch fl text h
  · left
    have herr := runToks_pcloseAtRoot fl (tokenize (pyStrip text))
      ⟨newClade false, [], 0, 0⟩ (tokenize_edge_ok (pyStrip text)) (by simpa using h)
    rw [parseTree_eq, herr]

/-- C7 witness: the text `)(` has equal `(`/`)` counts before the
(absent) semicolon yet its leading close paren arrives at the root, and
parsing raises "Parenthesis mismatch."; the text `((A)` has unequal
counts and parsing raises the count-mismatch `NewickError`. -/
theorem c7_paren_mismatch_witness :
    (countOpens (beforeSemi (tokenize (pyStrip (")(".toList)))) =
        countCloses (beforeSemi (tokenize (pyStrip (")(".toList)))) ∧
      pcloseAtRoot (tokenize (pyStrip (")(".toList))) 0 = true ∧
      (parseTree {} (")(".toList) =
          .error (.newick ("Parenthesis mismatch.".toList)) ∨
        parseTree {} (")(".toList) =
          .error (.newick ("Number of open/close parentheses do not match.".toList)))) ∧
    (countOpens (beforeSemi (tokenize (pyStrip ("((A)".toList)))) ≠
        countCloses (beforeSemi (tokenize (pyStrip ("((A)".toList)))) ∧
      (parseTree {} ("((A)".toList) =
          .error (.newick ("Parenthesis mismatch.".toList)) ∨
        parseTree {} ("((A)".toList) =
          .error (.newick ("Number of open/close parentheses do not match.".toList)))) :=
  ⟨⟨by decide, by decide, c7_paren_mismatch {} (")(".toList) (Or.inr (by decide))⟩,
   ⟨by decide, c7_paren_mismatch {} ("((A)".toList) (Or.inl (by decide))⟩⟩

end NewickIO
